import Mathlib

/-!
Verification development for the document_cleaner image-cleaning library
(`src/lib.rs`).  The Rust core is shallowly embedded: pure Rust functions
become Lean functions on `Nat` (u8/u32/usize values), wrapping unsigned
arithmetic is made explicit with `% 2^32`, the flood-fill stack loop becomes
a fuel-indexed structural recursion (the fuel is an upper bound on loop
iterations, proven sufficient), and pixel buffers become functions from
coordinates.
-/

/-- The 32-bit sentinel `u32::MAX` used by `AnalyzedImage.map` for "no grapheme". -/
def U32MAX : Nat := 2 ^ 32 - 1

/-- Wrapping u32 subtraction (release-mode `a - b` on `u32`); for `a, b < 2^32`
this is `(a - b) mod 2^32`. -/
def u32wsub (a b : Nat) : Nat := (a + 2 ^ 32 - b) % 2 ^ 32

/-- Wrapping u32 addition (release-mode `a + b` on `u32`). -/
def u32wadd (a b : Nat) : Nat := (a + b) % 2 ^ 32

/-- An RGB pixel, `image::Rgb<u8>`: three 8-bit channels. -/
structure Rgb where
  r : Nat
  g : Nat
  b : Nat
deriving DecidableEq, Repr

/-- An `image::RgbImage`: dimensions plus pixel contents.  `get_pixel x y`
is modelled by the total function `pix` (Rust panics out of bounds; all
verified accesses are in bounds). -/
structure Img where
  width : Nat
  height : Nat
  pix : Nat → Nat → Rgb

/-- `fn pixel_value(pixel: Rgb<u8>) -> u8`: mean channel intensity,
`((p0 + p1 + p2) / 3) as u8` (the sum is computed in u32, the quotient is
cast back to u8, hence the `% 256`). -/
def pixel_value (p : Rgb) : Nat := ((p.r + p.g + p.b) / 3) % 256

/-- `fn positive_difference(a: u32, b: u32) -> u32`. -/
def positive_difference (a b : Nat) : Nat := if a ≥ b then a - b else b - a

/-- The inclusive range `a..=b` of Rust, as the list `[a, a+1, ..., b]`
(empty when `a > b`). -/
def rangeIncl (a b : Nat) : List Nat := (List.range (b + 1 - a)).map (· + a)

/-- `fn darkest_pixel_within(x: u32, y: u32, distance: u32, image) -> u8`.
Faithful embedding: the loop bounds compute `(y - distance).max(0)` and
`(y + distance).min(image.height() - 1)` in u32, so the subtractions wrap
(`.max(0)` is a no-op on an unsigned value).  The scan folds the minimum
pixel value, starting from 255, outer loop on y, inner on x. -/
def darkest_pixel_within (x y distance : Nat) (image : Img) : Nat :=
  (rangeIncl (max (u32wsub y distance) 0)
      (min (u32wadd y distance) (u32wsub image.height 1))).foldl
    (fun darkest yy =>
      (rangeIncl (max (u32wsub x distance) 0)
          (min (u32wadd x distance) (u32wsub image.width 1))).foldl
        (fun d xx =>
          let pv := pixel_value (image.pix xx yy)
          if pv < d then pv else d)
        darkest)
    255

/-- Modelled from the spec: the window query as §4.1/§7 describe it — the
`(2·distance+1)²` box *clamped at the image edges* (coordinates clamped at 0
and at width−1/height−1, never underflowing), returning the minimum mean
intensity observed.  (`y - distance` below is Nat subtraction, i.e. a true
clamp at 0.)  This definition exists to be compared with the source
function `darkest_pixel_within` above. -/
def darkest_pixel_within_spec (x y distance : Nat) (image : Img) : Nat :=
  (rangeIncl (y - distance) (min (y + distance) (image.height - 1))).foldl
    (fun darkest yy =>
      (rangeIncl (x - distance) (min (x + distance) (image.width - 1))).foldl
        (fun d xx =>
          let pv := pixel_value (image.pix xx yy)
          if pv < d then pv else d)
        darkest)
    255

/-- `struct ImageAnalyzer`. -/
structure ImageAnalyzer where
  off_white_threshold : Nat
  lightness_threshold : Nat
  lightness_distance : Nat

/-- `impl Default for ImageAnalyzer`. -/
def ImageAnalyzer.defaultCfg : ImageAnalyzer :=
  { off_white_threshold := 240, lightness_threshold := 100, lightness_distance := 1 }

/-- `struct ImageCleaner`.  `page_margins.1` is the horizontal margin
(Rust `.0`), `page_margins.2` the vertical one (Rust `.1`). -/
structure ImageCleaner where
  speck_size_threshold : Nat
  page_margins : Nat × Nat
  isolation_distance_threshold : Nat
  isolation_size_threshold : Nat
  speck_fill_color : Rgb
  background_fill_color : Rgb

/-- `impl Default for ImageCleaner`. -/
def ImageCleaner.defaultCfg : ImageCleaner :=
  { speck_size_threshold := 15, page_margins := (50, 50),
    isolation_distance_threshold := 50, isolation_size_threshold := 80,
    speck_fill_color := ⟨255, 255, 255⟩, background_fill_color := ⟨255, 255, 255⟩ }

/-- `struct Grapheme`: pixel list (x, y, original color) in discovery order,
bounding box, and the tri-state manual override. -/
structure Grapheme where
  pixels : List (Nat × Nat × Rgb)
  top : Nat
  bottom : Nat
  left : Nat
  right : Nat
  manual_override : Option Bool
deriving DecidableEq, Repr

instance : Inhabited Grapheme := ⟨⟨[], 0, 0, 0, 0, none⟩⟩

/-- The coordinates of a grapheme pixel list. -/
def pixCoords (l : List (Nat × Nat × Rgb)) : List (Nat × Nat) :=
  l.map (fun p => (p.1, p.2.1))

/-- `struct VisitedMap`: the per-pixel boolean grid, modelled as a function
on coordinates (the Rust flat vector is indexed by `y * width + x`; all
accesses are in bounds, where the flat index determines the coordinates). -/
def Vm : Type := Nat → Nat → Bool

/-- `VisitedMap::set_visited`. -/
def vset (vm : Vm) (x y : Nat) (b : Bool) : Vm :=
  fun a b' => if a = x ∧ b' = y then b else vm a b'

/-- `struct AnalyzedImage`.  `map` is the pixel→grapheme-index map, modelled
as a function from the flat index `width * y + x` (the code's indexing) to
the stored u32, `U32MAX` meaning "no grapheme". -/
structure AnalyzedImage where
  graphemes : List Grapheme
  map : Nat → Nat
  width : Nat
  height : Nat

/-- `AnalyzedImage::new`: all-sentinel map, no graphemes. -/
def AnalyzedImage.new (image : Img) : AnalyzedImage :=
  { map := fun _ => U32MAX, graphemes := [], width := image.width, height := image.height }

/-- `AnalyzedImage::set_grapheme_at`. -/
def AnalyzedImage.set_grapheme_at (a : AnalyzedImage) (x y : Nat) (i : Option Nat) :
    AnalyzedImage :=
  { a with map := fun j => if j = a.width * y + x then (match i with
      | some v => v
      | none => U32MAX) else a.map j }

/-- `AnalyzedImage::get_grapheme_at`: sentinel ↦ `none`, otherwise index the
grapheme list (Rust indexing panics out of range; here `getD` with a default,
and the validity of the index is what claim C10 proves). -/
def AnalyzedImage.get_grapheme_at (a : AnalyzedImage) (x y : Nat) : Option Grapheme :=
  if a.map (a.width * y + x) = U32MAX then none
  else some (a.graphemes.getD (a.map (a.width * y + x)) default)

/-- The condition under which the whitening pass of `ImageAnalyzer::analyze`
marks pixel (x, y) visited/background: `offwhite || too_light_and_distant`. -/
def whitenCond (A : ImageAnalyzer) (image : Img) (x y : Nat) : Bool :=
  let value := pixel_value (image.pix x y)
  (value ≥ A.off_white_threshold) ||
    ((value ≥ A.lightness_threshold) &&
      (darkest_pixel_within x y A.lightness_distance image ≥ A.lightness_threshold))

/-- The visited map after the whitening loop of `analyze` (each in-bounds
pixel is set independently of the others, from an all-false map). -/
def whiten (A : ImageAnalyzer) (image : Img) : Vm :=
  fun x y => (decide (x < image.width) && decide (y < image.height)) && whitenCond A image x y

/-- `const NEIGHBORS: [(i32, i32); 4]`. -/
def NEIGHBORS : List (Int × Int) := [(1, 0), (0, 1), (-1, 0), (0, -1)]

/-- `(x as i32 + d) as u32`: reinterpreting u32 as i32, adding (wrapping),
and reinterpreting back is addition modulo 2^32 on the residue. -/
def nbrCoord (x : Nat) (d : Int) : Nat := (((x : Int) + d) % (2 ^ 32 : Int)).toNat

/-- One neighbor probe of the flood-fill loop body: bounds check, visited
check, then mark-and-push. -/
def pushOne (image : Img) (x y : Nat) (sv : List (Nat × Nat) × Vm) (d : Int × Int) :
    List (Nat × Nat) × Vm :=
  let nx := nbrCoord x d.1
  let ny := nbrCoord y d.2
  if nx ≥ image.width ∨ ny ≥ image.height then sv
  else if sv.2 nx ny then sv
  else ((nx, ny) :: sv.1, vset sv.2 nx ny true)

/-- The four neighbor probes of one flood-fill iteration, in source order. -/
def pushNeighbors (image : Img) (x y : Nat) (stack : List (Nat × Nat)) (vm : Vm) :
    List (Nat × Nat) × Vm :=
  NEIGHBORS.foldl (pushOne image x y) (stack, vm)

/-- One `while let Some((x, y)) = stack.pop()` iteration applied to the
grapheme under construction: record the pixel and widen the bounding box. -/
def popUpdate (image : Img) (x y : Nat) (g : Grapheme) : Grapheme :=
  { pixels := g.pixels ++ [(x, y, image.pix x y)],
    left := if x < g.left then x else g.left,
    right := if x > g.right then x else g.right,
    top := if y < g.top then y else g.top,
    bottom := if y > g.bottom then y else g.bottom,
    manual_override := g.manual_override }

/-- The flood-fill stack loop of `Grapheme::detect`, fuel-indexed (the fuel
bounds the iteration count; `detect` supplies `width*height + 1`, proven
sufficient: each iteration pops one entry and every push marks a previously
unvisited in-bounds cell). -/
def detectGo (image : Img) : Nat → List (Nat × Nat) → Vm → Grapheme → Grapheme × Vm
  | _, [], vm, g => (g, vm)
  | 0, _ :: _, vm, g => (g, vm)
  | fuel + 1, (x, y) :: rest, vm, g =>
    let g' := popUpdate image x y g
    let sv := pushNeighbors image x y rest vm
    detectGo image fuel sv.1 sv.2 g'

/-- `Grapheme::detect`: seed the stack with (x, y), mark it visited, run the
loop.  Initial bounding box is the seed, pixel list empty, no override. -/
def Grapheme.detect (x y : Nat) (image : Img) (vm : Vm) : Grapheme × Vm :=
  detectGo image (image.width * image.height + 1) [(x, y)] (vset vm x y true)
    ⟨[], y, y, x, x, none⟩

/-- The raster-scan coordinate order of `image.enumerate_pixels()`:
row-major, x varying fastest. -/
def rasterCoords (image : Img) : List (Nat × Nat) :=
  (List.range image.height).flatMap (fun y => (List.range image.width).map (fun x => (x, y)))

/-- The grapheme-collection loop of `ImageAnalyzer::analyze`: for each pixel
in raster order, if unvisited, detect a grapheme, write its pixels into the
map with the next index, and append it.  Returns the visited map as well
(the Rust loop keeps it alive between iterations). -/
def analyzeGo (image : Img) : List (Nat × Nat) → Vm → AnalyzedImage → AnalyzedImage × Vm
  | [], vm, acc => (acc, vm)
  | c :: rest, vm, acc =>
    if vm c.1 c.2 then analyzeGo image rest vm acc
    else
      let gv := Grapheme.detect c.1 c.2 image vm
      let acc' := gv.1.pixels.foldl
        (fun (a : AnalyzedImage) p => a.set_grapheme_at p.1 p.2.1 (some a.graphemes.length)) acc
      analyzeGo image rest gv.2
        { acc' with graphemes := acc'.graphemes ++ [gv.1] }

/-- `ImageAnalyzer::analyze`. -/
def ImageAnalyzer.analyze (A : ImageAnalyzer) (image : Img) : AnalyzedImage :=
  (analyzeGo image (rasterCoords image) (whiten A image) (AnalyzedImage.new image)).1

/-- The bounding-box edge-alignment proximity test of `is_isolated`
(`within_distance_threshold`). -/
def within_distance (C : ImageCleaner) (g og : Grapheme) : Bool :=
  ((positive_difference g.top og.top < C.isolation_distance_threshold) ||
      (positive_difference g.bottom og.bottom < C.isolation_distance_threshold)) &&
    ((positive_difference g.left og.left < C.isolation_distance_threshold) ||
      (positive_difference g.right og.right < C.isolation_distance_threshold))

/-- The wrapped alternating index probed at iteration `i` of the
`is_isolated` loop: `grapheme_index ± (1 + i/2)` (i64 arithmetic, here exact
on `Int`), wrapped circularly into `[0, n)` by the two branches of the
source. -/
def wrapIdx (n gi i : Nat) : Nat :=
  let index : Int := (gi : Int) + ((1 + i / 2 : Nat) : Int) * (if i % 2 = 1 then -1 else 1)
  if index < 0 then n - index.natAbs
  else if (n : Int) ≤ index then index.toNat - n
  else index.toNat

/-- The body of one `is_isolated` loop iteration: true iff this iteration
returns "not isolated" (the probed grapheme is big enough and within
distance). -/
def isoStep (C : ImageCleaner) (graphemes : List Grapheme) (g : Grapheme) (gi i : Nat) : Bool :=
  let other := graphemes.getD (wrapIdx graphemes.length gi i) default
  if other.pixels.length < C.isolation_size_threshold then false
  else within_distance C g other

/-- The `for i in 0..graphemes.len() - 1` loop of `is_isolated`, `fuel`
iterations remaining, current iteration number `i`. -/
def isoGo (C : ImageCleaner) (graphemes : List Grapheme) (g : Grapheme) (gi : Nat) :
    Nat → Nat → Bool
  | 0, _ => true
  | fuel + 1, i => if isoStep C graphemes g gi i then false else isoGo C graphemes g gi fuel (i + 1)

/-- `ImageCleaner::is_isolated`. -/
def ImageCleaner.is_isolated (C : ImageCleaner) (grapheme_index : Nat)
    (graphemes : List Grapheme) : Bool :=
  let grapheme := graphemes.getD grapheme_index default
  if grapheme.pixels.length > C.isolation_size_threshold then false
  else isoGo C graphemes grapheme grapheme_index (graphemes.length - 1) 0

/-- The output raster under construction (`ImageBuffer`), as dimensions plus
a pixel function; `put_pixel` is a pointwise update. -/
structure OutImg where
  width : Nat
  height : Nat
  pix : Nat → Nat → Rgb

/-- `put_pixel`. -/
def putPixel (im : OutImg) (x y : Nat) (c : Rgb) : OutImg :=
  { im with pix := fun a b => if a = x ∧ b = y then c else im.pix a b }

/-- `Grapheme::fill`: paint every member pixel with `color`. -/
def Grapheme.fill (g : Grapheme) (im : OutImg) (color : Rgb) : OutImg :=
  g.pixels.foldl (fun im' p => putPixel im' p.1 p.2.1 color) im

/-- `Grapheme::draw`: paint every member pixel with its recorded color. -/
def Grapheme.draw (g : Grapheme) (im : OutImg) : OutImg :=
  g.pixels.foldl (fun im' p => putPixel im' p.1 p.2.1 p.2.2) im

/-- The keep/remove decision of the `clean` loop body for grapheme `g` at
index `i`: manual override first, else too-small / inside-margins /
isolated.  The margin subtractions are wrapping u32 as in the source
(short-circuit evaluation keeps them from being reached on underflow in the
source; the wrapped value is the release-mode result). -/
def removedB (C : ImageCleaner) (a : AnalyzedImage) (i : Nat) (g : Grapheme) : Bool :=
  match g.manual_override with
  | some false => true
  | some true => false
  | none =>
    let too_small := g.pixels.length ≤ C.speck_size_threshold
    let inside_margins := (g.top < C.page_margins.2) ||
      (g.bottom ≥ u32wsub a.height C.page_margins.2) ||
      (g.left < C.page_margins.1) ||
      (g.right ≥ u32wsub a.width C.page_margins.1)
    too_small || inside_margins || C.is_isolated i a.graphemes

/-- One iteration of the `clean` grapheme loop. -/
def cleanStep (C : ImageCleaner) (a : AnalyzedImage) (i : Nat) (g : Grapheme) (im : OutImg) :
    OutImg :=
  if removedB C a i g then g.fill im C.speck_fill_color else g.draw im

/-- `ImageCleaner::clean`: fresh buffer filled with the background color,
then the indexed grapheme loop. -/
def ImageCleaner.clean (C : ImageCleaner) (a : AnalyzedImage) : OutImg :=
  (a.graphemes.foldl
    (fun (st : OutImg × Nat) g => (cleanStep C a st.2 g st.1, st.2 + 1))
    (⟨a.width, a.height, fun _ _ => C.background_fill_color⟩, 0)).1

/-! ## Concrete instances used by counterexamples and witnesses -/

/-- A 1×1 all-black image. -/
def imgBlack : Img := ⟨1, 1, fun _ _ => ⟨0, 0, 0⟩⟩

/-- A zero-width image (5 rows, no columns). -/
def imgZeroW : Img := ⟨0, 5, fun _ _ => ⟨0, 0, 0⟩⟩

/-- A 2×2 image, white at (0, 0), black elsewhere. -/
def imgCorner : Img :=
  ⟨2, 2, fun x y => if x = 0 ∧ y = 0 then ⟨255, 255, 255⟩ else ⟨0, 0, 0⟩⟩

/-- A single-pixel grapheme at the origin. -/
def gOne : Grapheme := ⟨[(0, 0, ⟨0, 0, 0⟩)], 0, 0, 0, 0, none⟩

/-- A two-pixel grapheme at the top-left corner. -/
def gTwo : Grapheme := ⟨[(0, 0, ⟨0, 0, 0⟩), (1, 0, ⟨0, 0, 0⟩)], 0, 0, 0, 1, none⟩

/-- A single-pixel grapheme far from the origin. -/
def gFar : Grapheme := ⟨[(500, 500, ⟨0, 0, 0⟩)], 500, 500, 500, 500, none⟩

/-- A cleaner whose isolation size threshold is 1, so `gOne` sits exactly at
the threshold. -/
def cfgThr1 : ImageCleaner := { ImageCleaner.defaultCfg with isolation_size_threshold := 1 }

/-- A cleaner whose isolation size threshold is 2. -/
def cfgThr2 : ImageCleaner := { ImageCleaner.defaultCfg with isolation_size_threshold := 2 }

/-- A hand-built analyzed 1×1 image holding the single grapheme `gOne`. -/
def aOne : AnalyzedImage := ⟨[gOne], fun _ => 0, 1, 1⟩

/-- The number of in-bounds unvisited cells — the termination measure of the
flood fill (each loop iteration pops one stack entry and each push marks one
previously unvisited in-bounds cell). -/
def cnt (image : Img) (vm : Vm) : Nat :=
  (rasterCoords image).countP (fun c => !vm c.1 c.2)

/-- The full inductive invariant of the flood-fill loop, relating the input
state (stack, visited map, partial grapheme) to the output `out` of
`detectGo` through the list `added` of pixels collected during the call:
the pixel list grows by exactly `added`, the override is untouched, the
final visited set is the initial one plus the added coordinates, every added
coordinate is in bounds and is either a stack entry or a freshly visited
cell, every stack entry is eventually collected, coordinates stay duplicate
free, colors are read from the image, `cnt + |stack|` is conserved into
`cnt + |added|`, and the bounding box is extended exactly to the added
pixels (monotone growth, boundedness, and attainment of each edge). -/
def DetectGoSpec (image : Img) (stack : List (Nat × Nat)) (vm : Vm) (g : Grapheme)
    (out : Grapheme × Vm) (added : List (Nat × Nat × Rgb)) : Prop :=
  out.1.pixels = g.pixels ++ added ∧
  out.1.manual_override = g.manual_override ∧
  (∀ a b, out.2 a b = true ↔ vm a b = true ∨ (a, b) ∈ pixCoords added) ∧
  (∀ c ∈ pixCoords added,
    (c.1 < image.width ∧ c.2 < image.height) ∧ (c ∈ stack ∨ vm c.1 c.2 = false)) ∧
  (∀ c ∈ stack, c ∈ pixCoords added) ∧
  (pixCoords (g.pixels ++ added)).Nodup ∧
  (∀ p ∈ added, p.2.2 = image.pix p.1 p.2.1) ∧
  (cnt image out.2 + added.length = cnt image vm + stack.length) ∧
  (out.1.left ≤ g.left ∧ g.right ≤ out.1.right ∧ out.1.top ≤ g.top ∧
    g.bottom ≤ out.1.bottom) ∧
  (∀ p ∈ added, out.1.left ≤ p.1 ∧ p.1 ≤ out.1.right ∧ out.1.top ≤ p.2.1 ∧
    p.2.1 ≤ out.1.bottom) ∧
  (out.1.left = g.left ∨ ∃ p ∈ added, p.1 = out.1.left) ∧
  (out.1.right = g.right ∨ ∃ p ∈ added, p.1 = out.1.right) ∧
  (out.1.top = g.top ∨ ∃ p ∈ added, p.2.1 = out.1.top) ∧
  (out.1.bottom = g.bottom ∨ ∃ p ∈ added, p.2.1 = out.1.bottom)

/-- A grapheme's bounding box is tight: ordered edges, every member pixel
inside, and every edge attained by some member pixel. -/
def TightBox (g : Grapheme) : Prop :=
  g.top ≤ g.bottom ∧ g.left ≤ g.right ∧
  (∀ p ∈ g.pixels, g.left ≤ p.1 ∧ p.1 ≤ g.right ∧ g.top ≤ p.2.1 ∧ p.2.1 ≤ g.bottom) ∧
  (∃ p ∈ g.pixels, p.1 = g.left) ∧ (∃ p ∈ g.pixels, p.1 = g.right) ∧
  (∃ p ∈ g.pixels, p.2.1 = g.top) ∧ (∃ p ∈ g.pixels, p.2.1 = g.bottom)

/-- The loop invariant of the grapheme-collection pass of `analyze`, for the
running state (visited map `vm`, analyzed image `acc`) over source `image`
with background mask `bg` (the whitened map): dimensions are carried over; a
cell is visited exactly when it is background or claimed by a grapheme;
grapheme pixel lists are duplicate-free, in bounds, colored from the source,
non-background, and pairwise disjoint; the pixel→index map stores the
sentinel exactly on unclaimed cells and the owning index on claimed ones;
the grapheme count plus unvisited count never exceeds the pixel count; and
every grapheme has a tight bounding box, an unset override, and at least one
pixel. -/
def AnalyzeInv (image : Img) (bg : Vm) (vm : Vm) (acc : AnalyzedImage) : Prop :=
  acc.width = image.width ∧
  acc.height = image.height ∧
  (∀ x y, x < image.width → y < image.height →
    (vm x y = true ↔ bg x y = true ∨ ∃ g ∈ acc.graphemes, (x, y) ∈ pixCoords g.pixels)) ∧
  (∀ g ∈ acc.graphemes, (pixCoords g.pixels).Nodup) ∧
  (∀ g ∈ acc.graphemes, ∀ p ∈ g.pixels,
    (p.1 < image.width ∧ p.2.1 < image.height) ∧ p.2.2 = image.pix p.1 p.2.1 ∧
      bg p.1 p.2.1 = false) ∧
  acc.graphemes.Pairwise (fun g g' => ∀ c ∈ pixCoords g.pixels, c ∉ pixCoords g'.pixels) ∧
  (∀ x y, x < image.width → y < image.height →
    (∀ g ∈ acc.graphemes, (x, y) ∉ pixCoords g.pixels) →
    acc.map (image.width * y + x) = U32MAX) ∧
  (∀ i (hi : i < acc.graphemes.length), ∀ p ∈ (acc.graphemes.get ⟨i, hi⟩).pixels,
    acc.map (image.width * p.2.1 + p.1) = i) ∧
  (acc.graphemes.length + cnt image vm ≤ image.width * image.height) ∧
  (∀ g ∈ acc.graphemes, TightBox g ∧ g.manual_override = none ∧ g.pixels ≠ [])

/-! ## The isolation search: helper lemmas -/

/-- `isoGo` returns false exactly when some iteration in its range fires. -/
theorem isoGo_false_iff (C : ImageCleaner) (gs : List Grapheme) (g : Grapheme) (gi : Nat) :
    ∀ fuel i0, isoGo C gs g gi fuel i0 = false ↔
      ∃ t, t < fuel ∧ isoStep C gs g gi (i0 + t) = true := by
  intro fuel
  induction fuel with
  | zero => intro i0; simp [isoGo]
  | succ n ih =>
    intro i0
    cases hx : isoStep C gs g gi i0 with
    | true =>
      simp only [isoGo, hx, if_true]
      constructor
      · intro _; exact ⟨0, by omega, by simpa using hx⟩
      · intro _; trivial
    | false =>
      simp only [isoGo, hx]
      rw [if_neg (by simp), ih (i0 + 1)]
      constructor
      · rintro ⟨t, ht, hs⟩
        refine ⟨t + 1, by omega, ?_⟩
        have e : i0 + (t + 1) = i0 + 1 + t := by omega
        rw [e]; exact hs
      · rintro ⟨t, ht, hs⟩
        cases t with
        | zero =>
          rw [Nat.add_zero] at hs
          rw [hs] at hx
          exact Bool.noConfusion hx
        | succ t =>
          refine ⟨t, by omega, ?_⟩
          have e : i0 + 1 + t = i0 + (t + 1) := by omega
          rw [e]; exact hs

/-- Value of the wrapped probe index at an even iteration. -/
theorem wrapIdx_even (n gi i : Nat) (hgi : gi < n) (h : i % 2 = 0) :
    wrapIdx n gi i = if gi + (1 + i / 2) < n then gi + (1 + i / 2) else gi + (1 + i / 2) - n := by
  have h1 : ¬ (i % 2 = 1) := by omega
  simp only [wrapIdx, h1, if_false, mul_one]
  split
  · next hneg => exfalso; omega
  · next hneg =>
    split
    · next hge => rw [if_neg (by omega)]; omega
    · next hlt => rw [if_pos (by omega)]; omega

/-- Value of the wrapped probe index at an odd iteration. -/
theorem wrapIdx_odd (n gi i : Nat) (hgi : gi < n) (h : i % 2 = 1) :
    wrapIdx n gi i = if 1 + i / 2 ≤ gi then gi - (1 + i / 2) else n - ((1 + i / 2) - gi) := by
  simp only [wrapIdx, h, if_true, mul_neg_one]
  split
  · next hneg => rw [if_neg (by omega)]; omega
  · next hneg =>
    split
    · next hge => exfalso; omega
    · next hlt => rw [if_pos (by omega)]; omega

/-- Every probe index of the loop stays in range. -/
theorem wrapIdx_lt (n gi i : Nat) (hgi : gi < n) (hi : i < n - 1) :
    wrapIdx n gi i < n := by
  have hk : 1 + i / 2 ≤ n - 1 := by omega
  rcases Nat.mod_two_eq_zero_or_one i with h | h
  · rw [wrapIdx_even n gi i hgi h]; split <;> omega
  · rw [wrapIdx_odd n gi i hgi h]; split <;> omega

/-- Completeness of the alternating scan: every other index `j ≠ gi` is
probed at some iteration `i < n - 1`. -/
theorem wrapIdx_surj (n gi j : Nat) (hgi : gi < n) (hj : j < n) (hne : j ≠ gi) :
    ∃ i, i < n - 1 ∧ wrapIdx n gi i = j := by
  by_cases hcase : gi < j
  · by_cases ho : j - gi ≤ n / 2
    · refine ⟨2 * (j - gi) - 2, by omega, ?_⟩
      have he : (2 * (j - gi) - 2) % 2 = 0 := by omega
      rw [wrapIdx_even n gi _ hgi he]
      have hv : 1 + (2 * (j - gi) - 2) / 2 = j - gi := by omega
      rw [hv, if_pos (by omega)]
      omega
    · refine ⟨2 * (n - (j - gi)) - 1, by omega, ?_⟩
      have hdm : (2 * (n - (j - gi)) - 1) % 2 = 1 := by omega
      rw [wrapIdx_odd n gi _ hgi hdm]
      have hv : 1 + (2 * (n - (j - gi)) - 1) / 2 = n - (j - gi) := by omega
      rw [hv, if_neg (by omega)]
      omega
  · have hjlt : j < gi := by omega
    by_cases ho : j + n - gi ≤ n / 2
    · refine ⟨2 * (j + n - gi) - 2, by omega, ?_⟩
      have he : (2 * (j + n - gi) - 2) % 2 = 0 := by omega
      rw [wrapIdx_even n gi _ hgi he]
      have hv : 1 + (2 * (j + n - gi) - 2) / 2 = j + n - gi := by omega
      rw [hv, if_neg (by omega)]
      omega
    · refine ⟨2 * (n - (j + n - gi)) - 1, by omega, ?_⟩
      have hdm : (2 * (n - (j + n - gi)) - 1) % 2 = 1 := by omega
      rw [wrapIdx_odd n gi _ hgi hdm]
      have hv : 1 + (2 * (n - (j + n - gi)) - 1) / 2 = n - (j + n - gi) := by omega
      rw [hv, if_pos (by omega)]
      omega

/-- One iteration fires iff the probed grapheme is big enough and within
distance. -/
theorem isoStep_true_iff (C : ImageCleaner) (gs : List Grapheme) (g : Grapheme) (gi i : Nat) :
    isoStep C gs g gi i = true ↔
      C.isolation_size_threshold ≤ (gs.getD (wrapIdx gs.length gi i) default).pixels.length ∧
      within_distance C g (gs.getD (wrapIdx gs.length gi i) default) = true := by
  simp only [isoStep]
  split
  · next hsmall =>
    simp only [Bool.false_eq_true, false_iff]
    rintro ⟨hbig, _⟩
    omega
  · next hbig =>
    constructor
    · intro hw; exact ⟨by omega, hw⟩
    · exact fun hp => hp.2

/-- If some other grapheme is big enough and within distance, `is_isolated`
returns false (the alternating scan is exhaustive). -/
theorem is_isolated_false_of_anchor (C : ImageCleaner) (gs : List Grapheme) (gi j : Nat)
    (hgi : gi < gs.length) (hj : j < gs.length) (hne : j ≠ gi)
    (hbig : C.isolation_size_threshold ≤ (gs.get ⟨j, hj⟩).pixels.length)
    (hwithin : within_distance C (gs.getD gi default) (gs.get ⟨j, hj⟩) = true) :
    C.is_isolated gi gs = false := by
  have hgdj : gs.getD j default = gs.get ⟨j, hj⟩ := by
    rw [List.getD_eq_getElem gs default hj]
    simp [List.get_eq_getElem]
  simp only [ImageCleaner.is_isolated]
  split
  · rfl
  · next hnotbig =>
    rw [isoGo_false_iff]
    obtain ⟨i, hi, hidx⟩ := wrapIdx_surj gs.length gi j hgi hj hne
    refine ⟨i, hi, ?_⟩
    rw [Nat.zero_add, isoStep_true_iff, hidx, hgdj]
    exact ⟨hbig, hwithin⟩

/-- If no other big-enough grapheme is within distance and the grapheme
itself is strictly below the size threshold, `is_isolated` returns true. -/
theorem is_isolated_true_of_no_anchor (C : ImageCleaner) (gs : List Grapheme) (gi : Nat)
    (hgi : gi < gs.length)
    (hsmall : (gs.get ⟨gi, hgi⟩).pixels.length < C.isolation_size_threshold)
    (hno : ∀ j (hj : j < gs.length), j ≠ gi →
      ¬ (C.isolation_size_threshold ≤ (gs.get ⟨j, hj⟩).pixels.length ∧
        within_distance C (gs.get ⟨gi, hgi⟩) (gs.get ⟨j, hj⟩) = true)) :
    C.is_isolated gi gs = true := by
  have hgd : gs.getD gi default = gs.get ⟨gi, hgi⟩ := by
    rw [List.getD_eq_getElem gs default hgi]
    simp [List.get_eq_getElem]
  simp only [ImageCleaner.is_isolated]
  rw [hgd, if_neg (by omega)]
  cases h : isoGo C gs (gs.get ⟨gi, hgi⟩) gi (gs.length - 1) 0 with
  | false =>
    exfalso
    rw [isoGo_false_iff] at h
    obtain ⟨t, ht, hstep⟩ := h
    rw [Nat.zero_add, isoStep_true_iff] at hstep
    have hlt := wrapIdx_lt gs.length gi t hgi ht
    by_cases heq : wrapIdx gs.length gi t = gi
    · rw [heq, hgd] at hstep
      omega
    · have hgd2 : gs.getD (wrapIdx gs.length gi t) default =
          gs.get ⟨wrapIdx gs.length gi t, hlt⟩ := by
        rw [List.getD_eq_getElem gs default hlt]
        simp [List.get_eq_getElem]
      rw [hgd2] at hstep
      exact hno _ hlt heq hstep
  | true => rfl

/-- `getD` with a default agrees with `get` below the length. -/
theorem getD_eq_get_of_lt (gs : List Grapheme) (i : Nat) (h : i < gs.length) :
    gs.getD i default = gs.get ⟨i, h⟩ := by
  rw [List.getD_eq_getElem gs default h]
  simp [List.get_eq_getElem]

/-! ## Claim C2 -/

/-- C2 counterexample: with `isolation_size_threshold = 1`, the single
grapheme `gOne` has pixel count 1 — at (not below) the threshold — yet
`is_isolated` reports it isolated, because the source's early exit tests the
strict `pixels.len() > threshold`.  So "at or above the threshold is never
removed by this rule" fails at the threshold boundary. -/
theorem c2_counterexample :
    cfgThr1.isolation_size_threshold ≤ gOne.pixels.length ∧
      cfgThr1.is_isolated 0 [gOne] = true := by
  constructor
  · decide
  · decide

/-- C2 (amended): a grapheme whose pixel count is *strictly above*
`isolation_size_threshold` is never reported isolated. -/
theorem c2_strictly_above_never_isolated (C : ImageCleaner) (gs : List Grapheme) (gi : Nat)
    (hgi : gi < gs.length)
    (hbig : C.isolation_size_threshold < (gs.get ⟨gi, hgi⟩).pixels.length) :
    C.is_isolated gi gs = false := by
  simp only [ImageCleaner.is_isolated]
  rw [getD_eq_get_of_lt gs gi hgi, if_pos (by omega)]

/-- Witness for C2's amended theorem at a concrete input. -/
theorem c2_strictly_above_never_isolated_witness :
    cfgThr1.is_isolated 0 [gTwo] = false :=
  c2_strictly_above_never_isolated cfgThr1 [gTwo] 0 (by decide) (by decide)

/-! ## Claim C3 -/

/-- C3: at the failing input (x = 0, y = 0, distance = 1) on the 2×2 image
`imgCorner`, the u32 subtraction `y - distance` in `darkest_pixel_within`
wraps to 2^32 − 1 — the trailing `.max(0)` cannot clamp an unsigned value —
so the source scans an empty range and returns 255, whereas the clamped
(2·distance+1)² box of the spec contains the three black pixels and yields
0.  (Under debug overflow checks the same subtraction panics.) -/
theorem c3_window_query_underflows :
    darkest_pixel_within 0 0 1 imgCorner = 255 ∧
      darkest_pixel_within_spec 0 0 1 imgCorner = 0 := by
  constructor
  · decide
  · decide

/-! ## Claim C4 -/

/-- C4 counterexample (the claim's negation): there is no configuration and
grapheme list on which the alternating-index search misses a qualifying
anchor.  The offsets +1, −1, +2, −2, … wrapped circularly visit every other
index exactly once, so the scan is exhaustive; whenever some other
at-or-above-threshold grapheme passes the edge-alignment test, `is_isolated`
answers false.  (The list-length bound keeps the source's i64 index
arithmetic exact; any analyzable image satisfies it.) -/
theorem c4_counterexample :
    ¬ ∃ (C : ImageCleaner) (gs : List Grapheme) (gi : Nat),
      gs.length < 2 ^ 62 ∧
      ∃ hgi : gi < gs.length,
        (gs.get ⟨gi, hgi⟩).pixels.length < C.isolation_size_threshold ∧
        (∃ j, ∃ hj : j < gs.length, j ≠ gi ∧
          C.isolation_size_threshold ≤ (gs.get ⟨j, hj⟩).pixels.length ∧
          within_distance C (gs.get ⟨gi, hgi⟩) (gs.get ⟨j, hj⟩) = true) ∧
        C.is_isolated gi gs = true := by
  rintro ⟨C, gs, gi, -, hgi, -, ⟨j, hj, hne, hbig, hwithin⟩, hiso⟩
  have hfalse := is_isolated_false_of_anchor C gs gi j hgi hj hne hbig
    (by rw [getD_eq_get_of_lt gs gi hgi]; exact hwithin)
  rw [hiso] at hfalse
  exact Bool.noConfusion hfalse

/-- C4 (amended): the alternating-index search never misses a qualifying
anchor — if any other grapheme at or above the size threshold passes the
edge-alignment distance test, `is_isolated` returns false. -/
theorem c4_search_never_misses_anchor (C : ImageCleaner) (gs : List Grapheme) (gi j : Nat)
    (hgi : gi < gs.length) (hj : j < gs.length) (hne : j ≠ gi)
    (hbig : C.isolation_size_threshold ≤ (gs.get ⟨j, hj⟩).pixels.length)
    (hwithin : within_distance C (gs.get ⟨gi, hgi⟩) (gs.get ⟨j, hj⟩) = true) :
    C.is_isolated gi gs = false :=
  is_isolated_false_of_anchor C gs gi j hgi hj hne hbig
    (by rw [getD_eq_get_of_lt gs gi hgi]; exact hwithin)

/-- Witness for C4's amended theorem at a concrete input. -/
theorem c4_search_never_misses_anchor_witness :
    cfgThr2.is_isolated 1 [gTwo, gOne] = false :=
  c4_search_never_misses_anchor cfgThr2 [gTwo, gOne] 1 0 (by decide) (by decide)
    (by decide) (by decide) (by decide)

/-! ## Claim C5 -/

/-- C5: for a list of at least two graphemes and an entry strictly below the
isolation size threshold, `is_isolated` returns true iff no *other* grapheme
at or above the threshold satisfies the edge-alignment proximity test
(|top−top| < d ∨ |bottom−bottom| < d) ∧ (|left−left| < d ∨ |right−right| < d). -/
theorem c5_isolated_iff_no_anchor (C : ImageCleaner) (gs : List Grapheme) (gi : Nat)
    (hlen : 2 ≤ gs.length) (hsz : gs.length < 2 ^ 62) (hgi : gi < gs.length)
    (hsmall : (gs.get ⟨gi, hgi⟩).pixels.length < C.isolation_size_threshold) :
    C.is_isolated gi gs = true ↔
      ¬ ∃ j, ∃ hj : j < gs.length, j ≠ gi ∧
        C.isolation_size_threshold ≤ (gs.get ⟨j, hj⟩).pixels.length ∧
        within_distance C (gs.get ⟨gi, hgi⟩) (gs.get ⟨j, hj⟩) = true := by
  constructor
  · rintro hiso ⟨j, hj, hne, hbig, hwithin⟩
    have hfalse := is_isolated_false_of_anchor C gs gi j hgi hj hne hbig
      (by rw [getD_eq_get_of_lt gs gi hgi]; exact hwithin)
    rw [hiso] at hfalse
    exact Bool.noConfusion hfalse
  · intro hno
    exact is_isolated_true_of_no_anchor C gs gi hgi hsmall
      (fun j hj hne hconj => hno ⟨j, hj, hne, hconj.1, hconj.2⟩)

/-- Witness for C5 at a concrete input: a 1-pixel grapheme below the
threshold 2, with the only other grapheme far away. -/
theorem c5_isolated_iff_no_anchor_witness :
    (cfgThr2.is_isolated 1 [gTwo, gFar] = true ↔
      ¬ ∃ j, ∃ hj : j < ([gTwo, gFar] : List Grapheme).length, j ≠ 1 ∧
        cfgThr2.isolation_size_threshold ≤
          (([gTwo, gFar] : List Grapheme).get ⟨j, hj⟩).pixels.length ∧
        within_distance cfgThr2 (([gTwo, gFar] : List Grapheme).get ⟨1, by decide⟩)
          (([gTwo, gFar] : List Grapheme).get ⟨j, hj⟩) = true) :=
  c5_isolated_iff_no_anchor cfgThr2 [gTwo, gFar] 1 (by decide) (by decide) (by decide)
    (by decide)

/-! ## Claim C6 -/

/-- C6 counterexample: on a zero-width image, `analyze` does not reject the
input — it returns an ordinary, fully formed `AnalyzedImage` (empty grapheme
list, all-sentinel map, the same dimensions); the source has no error/
`Result` path at all. -/
theorem c6_counterexample :
    (ImageAnalyzer.defaultCfg.analyze imgZeroW).graphemes = [] ∧
      (ImageAnalyzer.defaultCfg.analyze imgZeroW).map = (fun _ => U32MAX) ∧
      (ImageAnalyzer.defaultCfg.analyze imgZeroW).width = 0 ∧
      (ImageAnalyzer.defaultCfg.analyze imgZeroW).height = 5 :=
  ⟨rfl, rfl, rfl, rfl⟩

/-- C6 (amended): `analyze` accepts zero-width or zero-height images without
failure, returning an `AnalyzedImage` with no graphemes and an all-sentinel
map; no typed failure is produced (none exists in the interface). -/
theorem c6_zero_dimension_accepted (A : ImageAnalyzer) (image : Img)
    (h : image.width = 0 ∨ image.height = 0) :
    (A.analyze image).graphemes = [] ∧
      (A.analyze image).map = (fun _ => U32MAX) ∧
      (A.analyze image).width = image.width ∧
      (A.analyze image).height = image.height := by
  have hrc : rasterCoords image = [] := by
    rcases h with h | h
    · refine List.eq_nil_iff_forall_not_mem.mpr ?_
      intro c hc
      rw [rasterCoords, List.mem_flatMap] at hc
      obtain ⟨y, -, hmem⟩ := hc
      rw [h] at hmem
      simp at hmem
    · rw [rasterCoords, h]
      simp
  rw [ImageAnalyzer.analyze, hrc]
  exact ⟨rfl, rfl, rfl, rfl⟩

/-- Witness for C6's amended theorem at a concrete zero-width input. -/
theorem c6_zero_dimension_accepted_witness :
    (ImageAnalyzer.defaultCfg.analyze imgZeroW).map = (fun _ => U32MAX) :=
  (c6_zero_dimension_accepted ImageAnalyzer.defaultCfg imgZeroW (Or.inl rfl)).2.1

/-! ## Claim C9 -/

/-- C9: (1) cleaning an analyzed image whose grapheme list is empty completes
normally and returns the all-background image of the same dimensions — the
grapheme loop never runs, so the `0..count-1` subtraction site inside
`is_isolated` is never reached; (2) on a grapheme list of size exactly 1, a
grapheme below the isolation size threshold is reported isolated (the loop
runs `1 - 1 = 0` iterations, with no wrap-around fault). -/
theorem c9_empty_and_singleton :
    (∀ (C : ImageCleaner) (a : AnalyzedImage), a.graphemes = [] →
      (C.clean a).width = a.width ∧ (C.clean a).height = a.height ∧
        ∀ x y, (C.clean a).pix x y = C.background_fill_color) ∧
    (∀ (C : ImageCleaner) (g : Grapheme),
      g.pixels.length < C.isolation_size_threshold →
        C.is_isolated 0 [g] = true) := by
  constructor
  · intro C a h
    rw [ImageCleaner.clean, h]
    exact ⟨rfl, rfl, fun _ _ => rfl⟩
  · intro C g h
    have hgd : ([g] : List Grapheme).getD 0 default = g := rfl
    simp only [ImageCleaner.is_isolated, hgd]
    rw [if_neg (by omega)]
    rfl

/-- Witness for C9 at concrete inputs: a fresh (grapheme-free) analysis of a
1×1 image cleans to the background color, and a 1-pixel grapheme alone in
the list is isolated under threshold 2. -/
theorem c9_empty_and_singleton_witness :
    (cfgThr1.clean (AnalyzedImage.new imgBlack)).pix 0 0 = cfgThr1.background_fill_color ∧
      cfgThr2.is_isolated 0 [gOne] = true :=
  ⟨(c9_empty_and_singleton.1 cfgThr1 (AnalyzedImage.new imgBlack) rfl).2.2 0 0,
    c9_empty_and_singleton.2 cfgThr2 gOne (by decide)⟩

/-! ## The renderer: helper lemmas -/

/-- Painting a pixel list leaves untouched coordinates unchanged.  The
painting function is abstract (`f p` is the color written for entry `p`), so
this covers both `Grapheme::fill` (constant color) and `Grapheme::draw`
(recorded color). -/
theorem paint_pix_notmem (f : Nat × Nat × Rgb → Rgb) (l : List (Nat × Nat × Rgb)) :
    ∀ (im : OutImg) (x y : Nat), (x, y) ∉ pixCoords l →
      (l.foldl (fun im' p => putPixel im' p.1 p.2.1 (f p)) im).pix x y = im.pix x y := by
  induction l with
  | nil => intro im x y _; rfl
  | cons p t ih =>
    intro im x y hmem
    have hxt : (x, y) ∉ pixCoords t := by
      intro hc; exact hmem (by simp [pixCoords] at hc ⊢; tauto)
    have hxp : ¬ (x = p.1 ∧ y = p.2.1) := by
      rintro ⟨hx, hy⟩
      exact hmem (by simp [pixCoords, hx, hy])
    rw [List.foldl_cons, ih _ x y hxt]
    simp only [putPixel, if_neg hxp]

/-- Painting a pixel list with duplicate-free coordinates writes `f p` at
the coordinates of each entry `p`. -/
theorem paint_pix_mem (f : Nat × Nat × Rgb → Rgb) (l : List (Nat × Nat × Rgb))
    (hnd : (pixCoords l).Nodup) :
    ∀ (im : OutImg) (p : Nat × Nat × Rgb), p ∈ l →
      (l.foldl (fun im' q => putPixel im' q.1 q.2.1 (f q)) im).pix p.1 p.2.1 = f p := by
  induction l with
  | nil => intro im p hp; cases hp
  | cons q t ih =>
    intro im p hp
    rw [pixCoords, List.map_cons, List.nodup_cons] at hnd
    rcases List.mem_cons.mp hp with rfl | hpt
    · have hnt : (p.1, p.2.1) ∉ pixCoords t := hnd.1
      rw [List.foldl_cons, paint_pix_notmem f t _ p.1 p.2.1 hnt]
      simp [putPixel]
    · rw [List.foldl_cons]
      exact ih hnd.2 _ p hpt

/-- Painting preserves the buffer dimensions. -/
theorem paint_dims (f : Nat × Nat × Rgb → Rgb) (l : List (Nat × Nat × Rgb)) :
    ∀ im : OutImg, (l.foldl (fun im' p => putPixel im' p.1 p.2.1 (f p)) im).width = im.width ∧
      (l.foldl (fun im' p => putPixel im' p.1 p.2.1 (f p)) im).height = im.height := by
  induction l with
  | nil => intro im; exact ⟨rfl, rfl⟩
  | cons p t ih =>
    intro im
    rw [List.foldl_cons]
    exact ih (putPixel im p.1 p.2.1 (f p))

/-- `Grapheme::fill` as an abstract paint. -/
theorem fill_eq_paint (g : Grapheme) (im : OutImg) (col : Rgb) :
    g.fill im col = g.pixels.foldl (fun im' p => putPixel im' p.1 p.2.1 ((fun _ => col) p)) im :=
  rfl

/-- `Grapheme::draw` as an abstract paint. -/
theorem draw_eq_paint (g : Grapheme) (im : OutImg) :
    g.draw im = g.pixels.foldl (fun im' p => putPixel im' p.1 p.2.1 ((fun q => q.2.2) p)) im :=
  rfl

/-- The indexed grapheme fold of `clean`: untouched coordinates keep their
color, the pixels of the grapheme at (relative) position `j` get the speck
color or their recorded color according to the removal decision at absolute
index `k + j`, and the dimensions are preserved. -/
theorem cleanFold_pix (C : ImageCleaner) (a : AnalyzedImage) :
    ∀ (gs : List Grapheme) (k : Nat) (im : OutImg),
      (∀ g ∈ gs, (pixCoords g.pixels).Nodup) →
      gs.Pairwise (fun g g' => ∀ p ∈ pixCoords g.pixels, p ∉ pixCoords g'.pixels) →
      ((∀ x y, (¬ ∃ g ∈ gs, (x, y) ∈ pixCoords g.pixels) →
          ((gs.foldl (fun (st : OutImg × Nat) g => (cleanStep C a st.2 g st.1, st.2 + 1))
            (im, k)).1).pix x y = im.pix x y)
        ∧ (∀ j (hj : j < gs.length) (p : Nat × Nat × Rgb), p ∈ (gs.get ⟨j, hj⟩).pixels →
            ((gs.foldl (fun (st : OutImg × Nat) g => (cleanStep C a st.2 g st.1, st.2 + 1))
              (im, k)).1).pix p.1 p.2.1 =
              (if removedB C a (k + j) (gs.get ⟨j, hj⟩) then C.speck_fill_color else p.2.2))
        ∧ ((gs.foldl (fun (st : OutImg × Nat) g => (cleanStep C a st.2 g st.1, st.2 + 1))
            (im, k)).1).width = im.width
        ∧ ((gs.foldl (fun (st : OutImg × Nat) g => (cleanStep C a st.2 g st.1, st.2 + 1))
            (im, k)).1).height = im.height) := by
  intro gs
  induction gs with
  | nil =>
    intro k im _ _
    refine ⟨fun x y _ => rfl, ?_, rfl, rfl⟩
    intro j hj
    exact absurd hj (by simp)
  | cons g t ih =>
    intro k im hnd hdisj
    rw [List.pairwise_cons] at hdisj
    have hndg : (pixCoords g.pixels).Nodup := hnd g (List.mem_cons_self g t)
    have hndt : ∀ g' ∈ t, (pixCoords g'.pixels).Nodup :=
      fun g' hg' => hnd g' (List.mem_cons_of_mem g hg')
    have hstep : ∀ x y, (x, y) ∉ pixCoords g.pixels →
        (cleanStep C a k g im).pix x y = im.pix x y := by
      intro x y hxy
      rw [cleanStep]
      split
      · rw [fill_eq_paint]; exact paint_pix_notmem _ _ im x y hxy
      · rw [draw_eq_paint]; exact paint_pix_notmem _ _ im x y hxy
    have hstepmem : ∀ p : Nat × Nat × Rgb, p ∈ g.pixels →
        (cleanStep C a k g im).pix p.1 p.2.1 =
          (if removedB C a k g then C.speck_fill_color else p.2.2) := by
      intro p hp
      rw [cleanStep]
      split
      · next hrem =>
        rw [fill_eq_paint]
        exact paint_pix_mem _ _ hndg im p hp
      · next hrem =>
        rw [draw_eq_paint]
        exact paint_pix_mem _ _ hndg im p hp
    have hstepdims : (cleanStep C a k g im).width = im.width ∧
        (cleanStep C a k g im).height = im.height := by
      rw [cleanStep]
      split
      · rw [fill_eq_paint]; exact paint_dims _ _ im
      · rw [draw_eq_paint]; exact paint_dims _ _ im
    obtain ⟨ihn, ihm, ihw, ihh⟩ := ih (k + 1) (cleanStep C a k g im) hndt hdisj.2
    refine ⟨?_, ?_, ?_, ?_⟩
    · intro x y hno
      rw [List.foldl_cons]
      have hnt : ¬ ∃ g' ∈ t, (x, y) ∈ pixCoords g'.pixels := by
        rintro ⟨g', hg', hmem⟩
        exact hno ⟨g', List.mem_cons_of_mem g hg', hmem⟩
      have hng : (x, y) ∉ pixCoords g.pixels := by
        intro hmem
        exact hno ⟨g, List.mem_cons_self g t, hmem⟩
      rw [ihn x y hnt]
      exact hstep x y hng
    · intro j hj p hp
      rw [List.foldl_cons]
      cases j with
      | zero =>
        have hgp : p ∈ g.pixels := hp
        have hcoord : (p.1, p.2.1) ∈ pixCoords g.pixels := by
          rw [pixCoords, List.mem_map]; exact ⟨p, hgp, rfl⟩
        have hnt : ¬ ∃ g' ∈ t, (p.1, p.2.1) ∈ pixCoords g'.pixels := by
          rintro ⟨g', hg', hmem⟩
          exact hdisj.1 g' hg' (p.1, p.2.1) hcoord hmem
        rw [ihn p.1 p.2.1 hnt, Nat.add_zero]
        exact hstepmem p hgp
      | succ j =>
        have hjt : j < t.length := by simpa using hj
        have hpt : p ∈ (t.get ⟨j, hjt⟩).pixels := hp
        have := ihm j hjt p hpt
        rw [this]
        have harith : k + 1 + j = k + (j + 1) := by omega
        rw [harith]
        rfl
    · rw [List.foldl_cons, ihw]; exact hstepdims.1
    · rw [List.foldl_cons, ihh]; exact hstepdims.2

/-! ## Claim C8 -/

/-- C8: for an analyzed image whose graphemes have duplicate-free, pairwise
disjoint pixel lists recording the source image's colors, `clean` returns an
image of the same dimensions in which every background pixel (member of no
grapheme) is `background_fill_color`, every pixel of a removed grapheme
(manual override false, or no override and too-small or inside-margins or
isolated) is `speck_fill_color`, and every pixel of a kept grapheme is its
original source color, with no other transformation. -/
theorem c8_clean_renders (C : ImageCleaner) (a : AnalyzedImage) (image : Img)
    (hnd : ∀ g ∈ a.graphemes, (pixCoords g.pixels).Nodup)
    (hdisj : a.graphemes.Pairwise (fun g g' => ∀ p ∈ pixCoords g.pixels, p ∉ pixCoords g'.pixels))
    (hcol : ∀ g ∈ a.graphemes, ∀ p ∈ g.pixels, p.2.2 = image.pix p.1 p.2.1) :
    (C.clean a).width = a.width ∧ (C.clean a).height = a.height ∧
    ∀ x y,
      ((∀ g ∈ a.graphemes, ∀ c : Rgb, (x, y, c) ∉ g.pixels) →
        (C.clean a).pix x y = C.background_fill_color)
      ∧ (∀ i (hi : i < a.graphemes.length) (c : Rgb),
          (x, y, c) ∈ (a.graphemes.get ⟨i, hi⟩).pixels →
          (C.clean a).pix x y =
            (if removedB C a i (a.graphemes.get ⟨i, hi⟩) then C.speck_fill_color
              else image.pix x y)) := by
  obtain ⟨hn, hm, hw, hh⟩ := cleanFold_pix C a a.graphemes 0
    ⟨a.width, a.height, fun _ _ => C.background_fill_color⟩ hnd hdisj
  refine ⟨hw, hh, ?_⟩
  intro x y
  constructor
  · intro hbg
    have hno : ¬ ∃ g ∈ a.graphemes, (x, y) ∈ pixCoords g.pixels := by
      rintro ⟨g, hg, hmem⟩
      rw [pixCoords, List.mem_map] at hmem
      obtain ⟨p, hp, hpe⟩ := hmem
      have hx : p.1 = x := congrArg Prod.fst hpe
      have hy : p.2.1 = y := congrArg Prod.snd hpe
      exact hbg g hg p.2.2 (by rw [← hx, ← hy]; exact hp)
    exact hn x y hno
  · intro i hi c hmem
    have := hm i hi (x, y, c) hmem
    rw [Nat.zero_add] at this
    rw [ImageCleaner.clean, this]
    have hceq : c = image.pix x y :=
      hcol _ (List.get_mem a.graphemes i hi) (x, y, c) hmem
    rw [hceq]

/-- Witness for C8 at a concrete input: the single too-small grapheme of
`aOne` is removed and painted with the speck color. -/
theorem c8_clean_renders_witness :
    (cfgThr1.clean aOne).pix 0 0 =
      (if removedB cfgThr1 aOne 0 gOne
        then cfgThr1.speck_fill_color else imgBlack.pix 0 0) :=
  ((c8_clean_renders cfgThr1 aOne imgBlack (by decide) (by decide)
    (by decide)).2.2 0 0).2 0 (by decide) ⟨0, 0, 0⟩ (by decide)

/-! ## Raster coordinates, visited counts -/

/-- Membership in the raster-scan coordinate list is being in bounds. -/
theorem mem_rasterCoords (image : Img) (c : Nat × Nat) :
    c ∈ rasterCoords image ↔ c.1 < image.width ∧ c.2 < image.height := by
  rcases c with ⟨x, y⟩
  simp only [rasterCoords, List.mem_flatMap, List.mem_map, List.mem_range]
  constructor
  · rintro ⟨y', hy', x', hx', heq⟩
    rw [Prod.mk.injEq] at heq
    obtain ⟨rfl, rfl⟩ := heq
    exact ⟨hx', hy'⟩
  · rintro ⟨hx, hy⟩
    exact ⟨y, hy, x, hx, rfl⟩

/-- The raster-scan coordinate list has no duplicates. -/
theorem nodup_rasterCoords (image : Img) : (rasterCoords image).Nodup := by
  rw [rasterCoords]
  apply List.nodup_flatMap.mpr
  constructor
  · intro y _
    exact (List.nodup_range _).map (fun a b h => by
      have := congrArg Prod.fst h
      simpa using this)
  · refine (List.pairwise_lt_range _).imp ?_
    intro y₁ y₂ hlt c hc₁ hc₂
    simp only [List.mem_map, List.mem_range] at hc₁ hc₂
    obtain ⟨x₁, -, he₁⟩ := hc₁
    obtain ⟨x₂, -, he₂⟩ := hc₂
    have h1 : y₁ = c.2 := by rw [← he₁]
    have h2 : y₂ = c.2 := by rw [← he₂]
    omega

/-- The raster list enumerates every cell once. -/
theorem length_rasterCoords (image : Img) :
    (rasterCoords image).length = image.width * image.height := by
  rw [rasterCoords, List.length_flatMap]
  simp only [Function.comp_def, List.length_map, List.length_range]
  induction image.height with
  | zero => simp
  | succ n ih =>
    rw [List.range_succ, List.map_append, List.sum_append]
    simp only [List.map_cons, List.map_nil, List.sum_cons, List.sum_nil]
    rw [Nat.mul_succ]
    omega

/-- The unvisited count is bounded by the pixel count. -/
theorem cnt_le (image : Img) (vm : Vm) : cnt image vm ≤ image.width * image.height := by
  rw [cnt, ← length_rasterCoords image]
  exact List.countP_le_length _

/-- `countP` drops by exactly one when the predicate is turned off at a
single element of a duplicate-free list. -/
theorem countP_pred_flip {α : Type} (l : List α) (hl : l.Nodup) (e : α)
    (he : e ∈ l) (p p' : α → Bool) (hpe : p e = true) (hp'e : p' e = false)
    (hagree : ∀ x ∈ l, x ≠ e → p' x = p x) :
    l.countP p' + 1 = l.countP p := by
  induction l with
  | nil => cases he
  | cons a t ih =>
    rw [List.nodup_cons] at hl
    rcases List.mem_cons.mp he with rfl | het
    · rw [List.countP_cons, List.countP_cons, hpe, hp'e]
      have ht : t.countP p' = t.countP p := by
        apply List.countP_congr
        intro x hx
        rw [hagree x (List.mem_cons_of_mem _ hx) (fun hx' => hl.1 (hx' ▸ hx))]
      simp [ht]
    · by_cases hae : a = e
      · subst hae
        exact absurd het hl.1
      · rw [List.countP_cons, List.countP_cons,
          hagree a (List.mem_cons_self a t) hae]
        have := ih hl.2 het (fun x hx hxe => hagree x (List.mem_cons_of_mem _ hx) hxe)
        omega

/-- The visited map extended at one point. -/
theorem vset_true_iff (vm : Vm) (x y a b : Nat) :
    vset vm x y true a b = true ↔ vm a b = true ∨ (a = x ∧ b = y) := by
  rw [vset]
  split
  · next h => simp [h]
  · next h => simp [h]

/-- Marking a previously unvisited in-bounds cell decreases the unvisited
count by exactly one. -/
theorem cnt_vset (image : Img) (vm : Vm) (x y : Nat) (hx : x < image.width)
    (hy : y < image.height) (hv : vm x y = false) :
    cnt image (vset vm x y true) + 1 = cnt image vm := by
  apply countP_pred_flip (rasterCoords image) (nodup_rasterCoords image) (x, y)
    ((mem_rasterCoords image (x, y)).mpr ⟨hx, hy⟩)
  · simp [hv]
  · simp [vset]
  · intro c _ hc
    have hcne : ¬ (c.1 = x ∧ c.2 = y) := by
      rintro ⟨h1, h2⟩
      exact hc (Prod.ext h1 h2)
    simp only [vset, if_neg hcne]

/-- The flat index `w * y + x` determines the coordinates when `x < w`. -/
theorem flatIndex_inj (w x y x' y' : Nat) (hx : x < w) (hx' : x' < w)
    (h : w * y + x = w * y' + x') : x = x' ∧ y = y' := by
  have hw : 0 < w := by omega
  have hd : (w * y + x) / w = y := by
    rw [Nat.mul_add_div hw]
    have : x / w = 0 := Nat.div_eq_of_lt hx
    omega
  have hd' : (w * y' + x') / w = y' := by
    rw [Nat.mul_add_div hw]
    have : x' / w = 0 := Nat.div_eq_of_lt hx'
    omega
  have hm : (w * y + x) % w = x := by
    rw [Nat.mul_add_mod]
    exact Nat.mod_eq_of_lt hx
  have hm' : (w * y' + x') % w = x' := by
    rw [Nat.mul_add_mod]
    exact Nat.mod_eq_of_lt hx'
  constructor
  · rw [← hm, ← hm', h]
  · rw [← hd, ← hd', h]

/-! ## The flood fill: neighbor pushes -/

/-- One neighbor probe either leaves the state unchanged or pushes one fresh
in-bounds cell, marking it visited. -/
theorem pushOne_cases (image : Img) (x y : Nat) (sv : List (Nat × Nat) × Vm) (d : Int × Int) :
    pushOne image x y sv d = sv ∨
      ∃ c : Nat × Nat, pushOne image x y sv d = (c :: sv.1, vset sv.2 c.1 c.2 true) ∧
        c.1 < image.width ∧ c.2 < image.height ∧ sv.2 c.1 c.2 = false := by
  rw [pushOne]
  split
  · exact Or.inl rfl
  · next hin =>
    split
    · exact Or.inl rfl
    · next hnv =>
      refine Or.inr ⟨(nbrCoord x d.1, nbrCoord y d.2), rfl, by omega, by omega, ?_⟩
      simpa using hnv

/-- Net effect of folding neighbor probes: a duplicate-free list `new` of
fresh in-bounds cells is pushed onto the stack, the visited map is extended
by exactly those cells, and `cnt + stack length` is conserved. -/
theorem pushList_spec (image : Img) (x y : Nat) :
    ∀ (ds : List (Int × Int)) (st : List (Nat × Nat)) (vm : Vm),
      ∃ new : List (Nat × Nat),
        (ds.foldl (pushOne image x y) (st, vm)).1 = new ++ st ∧
        (∀ a b, (ds.foldl (pushOne image x y) (st, vm)).2 a b = true ↔
          vm a b = true ∨ (a, b) ∈ new) ∧
        (∀ c ∈ new, (c.1 < image.width ∧ c.2 < image.height) ∧ vm c.1 c.2 = false) ∧
        new.Nodup ∧
        (cnt image (ds.foldl (pushOne image x y) (st, vm)).2 +
          (ds.foldl (pushOne image x y) (st, vm)).1.length = cnt image vm + st.length) := by
  intro ds
  induction ds with
  | nil =>
    intro st vm
    exact ⟨[], rfl, fun a b => by simp, by simp, List.nodup_nil, rfl⟩
  | cons d ds ih =>
    intro st vm
    rw [List.foldl_cons]
    rcases pushOne_cases image x y (st, vm) d with heq | ⟨c, heq, hcw, hch, hcv⟩
    · rw [heq]
      exact ih st vm
    · have heq2 : pushOne image x y (st, vm) d = (c :: st, vset vm c.1 c.2 true) := heq
      rw [heq2]
      obtain ⟨new', h1, h2, h3, h4, h5⟩ := ih (c :: st) (vset vm c.1 c.2 true)
      refine ⟨new' ++ [c], ?_, ?_, ?_, ?_, ?_⟩
      · rw [h1, List.append_assoc, List.singleton_append]
      · intro a b
        rw [h2 a b, vset_true_iff]
        simp only [List.mem_append, List.mem_singleton]
        constructor
        · rintro ((hv | ⟨rfl, rfl⟩) | hn)
          · exact Or.inl hv
          · exact Or.inr (Or.inr rfl)
          · exact Or.inr (Or.inl hn)
        · rintro (hv | (hn | rfl))
          · exact Or.inl (Or.inl hv)
          · exact Or.inr hn
          · exact Or.inl (Or.inr ⟨rfl, rfl⟩)
      · intro c' hc'
        rcases List.mem_append.mp hc' with hn | hc
        · obtain ⟨hb, hf⟩ := h3 c' hn
          refine ⟨hb, ?_⟩
          cases hvv : vm c'.1 c'.2
          · rfl
          · exfalso
            rw [(vset_true_iff vm c.1 c.2 c'.1 c'.2).mpr (Or.inl hvv)] at hf
            exact Bool.noConfusion hf
        · rw [List.mem_singleton] at hc
          subst hc
          exact ⟨⟨hcw, hch⟩, hcv⟩
      · rw [List.nodup_append]
        refine ⟨h4, List.nodup_singleton c, ?_⟩
        intro c' hc' hcc
        rw [List.mem_singleton] at hcc
        subst hcc
        have := (h3 c' hc').2
        rw [show vset vm c'.1 c'.2 true c'.1 c'.2 = true from by simp [vset]] at this
        exact Bool.noConfusion this
      · have hstep : cnt image (vset vm c.1 c.2 true) + 1 = cnt image vm :=
          cnt_vset image vm c.1 c.2 hcw hch hcv
        simp only [List.length_cons] at h5
        omega

/-! ## The flood fill: main loop invariant -/

/-- `pixCoords` distributes over append. -/
theorem pixCoords_append (l l' : List (Nat × Nat × Rgb)) :
    pixCoords (l ++ l') = pixCoords l ++ pixCoords l' :=
  List.map_append _ l l'

/-- An empty stack returns immediately, whatever the fuel. -/
theorem detectGo_nil (image : Img) (fuel : Nat) (vm : Vm) (g : Grapheme) :
    detectGo image fuel [] vm g = (g, vm) := by
  cases fuel <;> rfl

/-- The invariant holds trivially for an empty stack. -/
theorem detectGoSpec_nil (image : Img) (vm : Vm) (g : Grapheme)
    (hgnd : (pixCoords g.pixels).Nodup) :
    DetectGoSpec image [] vm g (g, vm) [] := by
  unfold DetectGoSpec
  refine ⟨by simp, rfl, ?_, ?_, ?_, ?_, ?_, ?_, ?_, ?_, ?_, ?_, ?_, ?_⟩
  · intro a b; simp [pixCoords]
  · intro c hc; simp [pixCoords] at hc
  · intro c hc; cases hc
  · simpa using hgnd
  · intro p hp; cases hp
  · simp
  · exact ⟨Nat.le_refl _, Nat.le_refl _, Nat.le_refl _, Nat.le_refl _⟩
  · intro p hp; cases hp
  · exact Or.inl rfl
  · exact Or.inl rfl
  · exact Or.inl rfl
  · exact Or.inl rfl

/-- Main invariant lemma for the flood-fill loop: with enough fuel
(`cnt + |stack|`), starting from a duplicate-free stack of in-bounds visited
cells disjoint from the already collected (visited, duplicate-free) pixels,
`detectGo` satisfies `DetectGoSpec` for some `added`. -/
theorem detectGo_spec (image : Img) :
    ∀ (fuel : Nat) (stack : List (Nat × Nat)) (vm : Vm) (g : Grapheme),
      cnt image vm + stack.length ≤ fuel →
      (∀ c ∈ stack, (c.1 < image.width ∧ c.2 < image.height) ∧ vm c.1 c.2 = true) →
      stack.Nodup →
      (∀ p ∈ g.pixels, vm p.1 p.2.1 = true) →
      (pixCoords g.pixels).Nodup →
      (∀ c ∈ stack, c ∉ pixCoords g.pixels) →
      ∃ added, DetectGoSpec image stack vm g (detectGo image fuel stack vm g) added := by
  intro fuel
  induction fuel with
  | zero =>
    intro stack vm g hfuel hstack hnd hgvm hgnd hdisj
    cases stack with
    | nil =>
      rw [detectGo_nil]
      exact ⟨[], detectGoSpec_nil image vm g hgnd⟩
    | cons c cs =>
      exfalso
      simp only [List.length_cons] at hfuel
      omega
  | succ n ih =>
    intro stack vm g hfuel hstack hnd hgvm hgnd hdisj
    cases stack with
    | nil =>
      rw [detectGo_nil]
      exact ⟨[], detectGoSpec_nil image vm g hgnd⟩
    | cons hd rest =>
      rcases hd with ⟨x, y⟩
      have hunfold : detectGo image (n + 1) ((x, y) :: rest) vm g =
          detectGo image n (NEIGHBORS.foldl (pushOne image x y) (rest, vm)).1
            (NEIGHBORS.foldl (pushOne image x y) (rest, vm)).2 (popUpdate image x y g) := rfl
      obtain ⟨new, hsh, hiff, hfresh, hnnd, hcons⟩ := pushList_spec image x y NEIGHBORS rest vm
      have hxy := hstack (x, y) (List.mem_cons_self _ _)
      have hreststack : ∀ c ∈ rest, (c.1 < image.width ∧ c.2 < image.height) ∧ vm c.1 c.2 = true :=
        fun c hc => hstack c (List.mem_cons_of_mem _ hc)
      rw [List.nodup_cons] at hnd
      -- the updated grapheme
      have hg2pix : (popUpdate image x y g).pixels = g.pixels ++ [(x, y, image.pix x y)] := rfl
      have hg2ov : (popUpdate image x y g).manual_override = g.manual_override := rfl
      have hg2l : (popUpdate image x y g).left = if x < g.left then x else g.left := rfl
      have hg2r : (popUpdate image x y g).right = if x > g.right then x else g.right := rfl
      have hg2t : (popUpdate image x y g).top = if y < g.top then y else g.top := rfl
      have hg2b : (popUpdate image x y g).bottom = if y > g.bottom then y else g.bottom := rfl
      -- hypotheses of the induction hypothesis
      have hfuel2 : cnt image (NEIGHBORS.foldl (pushOne image x y) (rest, vm)).2 +
          (NEIGHBORS.foldl (pushOne image x y) (rest, vm)).1.length ≤ n := by
        simp only [List.length_cons] at hfuel
        omega
      have hstack2 : ∀ c ∈ (NEIGHBORS.foldl (pushOne image x y) (rest, vm)).1,
          (c.1 < image.width ∧ c.2 < image.height) ∧
            (NEIGHBORS.foldl (pushOne image x y) (rest, vm)).2 c.1 c.2 = true := by
        intro c hc
        rw [hsh] at hc
        rcases List.mem_append.mp hc with hcn | hcr
        · exact ⟨(hfresh c hcn).1, (hiff c.1 c.2).mpr (Or.inr hcn)⟩
        · exact ⟨(hreststack c hcr).1, (hiff c.1 c.2).mpr (Or.inl (hreststack c hcr).2)⟩
      have hnd2 : (NEIGHBORS.foldl (pushOne image x y) (rest, vm)).1.Nodup := by
        rw [hsh, List.nodup_append]
        refine ⟨hnnd, hnd.2, ?_⟩
        intro c hcn hcr
        have h1 := (hfresh c hcn).2
        rw [(hreststack c hcr).2] at h1
        exact Bool.noConfusion h1
      have hgvm2 : ∀ p ∈ (popUpdate image x y g).pixels,
          (NEIGHBORS.foldl (pushOne image x y) (rest, vm)).2 p.1 p.2.1 = true := by
        intro p hp
        rw [hg2pix] at hp
        rcases List.mem_append.mp hp with hpo | hpn
        · exact (hiff p.1 p.2.1).mpr (Or.inl (hgvm p hpo))
        · rw [List.mem_singleton] at hpn
          subst hpn
          exact (hiff x y).mpr (Or.inl hxy.2)
      have hgnd2 : (pixCoords (popUpdate image x y g).pixels).Nodup := by
        rw [hg2pix, pixCoords_append, List.nodup_append]
        refine ⟨hgnd, by simp [pixCoords], ?_⟩
        intro c hco hcs
        simp only [pixCoords, List.map_cons, List.map_nil, List.mem_singleton] at hcs
        subst hcs
        exact hdisj (x, y) (List.mem_cons_self _ _) hco
      have hdisj2 : ∀ c ∈ (NEIGHBORS.foldl (pushOne image x y) (rest, vm)).1,
          c ∉ pixCoords (popUpdate image x y g).pixels := by
        intro c hc hcg
        rw [hg2pix, pixCoords_append] at hcg
        rw [hsh] at hc
        rcases List.mem_append.mp hcg with hcold | hcxy
        · -- old pixel coordinates are visited in vm
          have hcvm : vm c.1 c.2 = true := by
            rw [pixCoords, List.mem_map] at hcold
            obtain ⟨p, hp, hpe⟩ := hcold
            have h1 : p.1 = c.1 := congrArg Prod.fst hpe
            have h2 : p.2.1 = c.2 := congrArg Prod.snd hpe
            rw [← h1, ← h2]
            exact hgvm p hp
          rcases List.mem_append.mp hc with hcn | hcr
          · have h1 := (hfresh c hcn).2
            rw [hcvm] at h1
            exact Bool.noConfusion h1
          · exact hdisj c (List.mem_cons_of_mem _ hcr) (by
              rw [pixCoords, List.mem_map] at hcold ⊢
              exact hcold)
        · simp only [pixCoords, List.map_cons, List.map_nil, List.mem_singleton] at hcxy
          subst hcxy
          rcases List.mem_append.mp hc with hcn | hcr
          · have h1 := (hfresh (x, y) hcn).2
            rw [hxy.2] at h1
            exact Bool.noConfusion h1
          · exact hnd.1 hcr
      obtain ⟨added2, HS⟩ := ih _ _ _ hfuel2 hstack2 hnd2 hgvm2 hgnd2 hdisj2
      unfold DetectGoSpec at HS
      obtain ⟨Q1, Q2, Q3, Q4, Q5, Q6, Q7, Q8, Q9, Q10, Q11, Q12, Q13, Q14⟩ := HS
      refine ⟨(x, y, image.pix x y) :: added2, ?_⟩
      rw [hunfold]
      unfold DetectGoSpec
      have hnew_in_added2 : ∀ c ∈ new, c ∈ pixCoords added2 := by
        intro c hc
        exact Q5 c (by rw [hsh]; exact List.mem_append_left _ hc)
      have hcoords : pixCoords ((x, y, image.pix x y) :: added2) =
          (x, y) :: pixCoords added2 := rfl
      refine ⟨?_, ?_, ?_, ?_, ?_, ?_, ?_, ?_, ?_, ?_, ?_, ?_, ?_, ?_⟩
      · rw [Q1, hg2pix, ← List.append_cons]
      · rw [Q2, hg2ov]
      · intro a b
        rw [Q3 a b, hiff a b, hcoords]
        constructor
        · rintro ((hv | hn) | ha)
          · exact Or.inl hv
          · exact Or.inr (List.mem_cons_of_mem _ (hnew_in_added2 (a, b) hn))
          · exact Or.inr (List.mem_cons_of_mem _ ha)
        · rintro (hv | hm)
          · exact Or.inl (Or.inl hv)
          · rcases List.mem_cons.mp hm with heq | ha
            · have ha' : a = x := congrArg Prod.fst heq
              have hb' : b = y := congrArg Prod.snd heq
              subst ha'
              subst hb'
              exact Or.inl (Or.inl hxy.2)
            · exact Or.inr ha
      · intro c hc
        rw [hcoords] at hc
        rcases List.mem_cons.mp hc with rfl | ha
        · exact ⟨hxy.1, Or.inl (List.mem_cons_self _ _)⟩
        · obtain ⟨hb, hor⟩ := Q4 c ha
          refine ⟨hb, ?_⟩
          rcases hor with hcs | hcf
          · rw [hsh] at hcs
            rcases List.mem_append.mp hcs with hcn | hcr
            · exact Or.inr ((hfresh c hcn).2)
            · exact Or.inl (List.mem_cons_of_mem _ hcr)
          · cases hcv : vm c.1 c.2
            · exact Or.inr rfl
            · exfalso
              rw [(hiff c.1 c.2).mpr (Or.inl hcv)] at hcf
              exact Bool.noConfusion hcf
      · intro c hc
        rw [hcoords]
        rcases List.mem_cons.mp hc with rfl | hcr
        · exact List.mem_cons_self _ _
        · exact List.mem_cons_of_mem _
            (Q5 c (by rw [hsh]; exact List.mem_append_right _ hcr))
      · rw [List.append_cons, ← hg2pix]
        exact Q6
      · intro p hp
        rcases List.mem_cons.mp hp with rfl | hpa
        · rfl
        · exact Q7 p hpa
      · simp only [List.length_cons]
        simp only [List.length_cons] at hfuel
        omega
      · obtain ⟨q1, q2, q3, q4⟩ := Q9
        rw [hg2l] at q1
        rw [hg2r] at q2
        rw [hg2t] at q3
        rw [hg2b] at q4
        refine ⟨?_, ?_, ?_, ?_⟩
        · split at q1 <;> omega
        · split at q2 <;> omega
        · split at q3 <;> omega
        · split at q4 <;> omega
      · intro p hp
        rcases List.mem_cons.mp hp with rfl | hpa
        · obtain ⟨q1, q2, q3, q4⟩ := Q9
          rw [hg2l] at q1
          rw [hg2r] at q2
          rw [hg2t] at q3
          rw [hg2b] at q4
          have hp1 : ((x, y, image.pix x y) : Nat × Nat × Rgb).1 = x := rfl
          have hp2 : ((x, y, image.pix x y) : Nat × Nat × Rgb).2.1 = y := rfl
          rw [hp1, hp2]
          refine ⟨?_, ?_, ?_, ?_⟩
          · split at q1 <;> omega
          · split at q2 <;> omega
          · split at q3 <;> omega
          · split at q4 <;> omega
        · exact Q10 p hpa
      · rcases Q11 with hq | ⟨p, hpa, hpe⟩
        · rw [hg2l] at hq
          by_cases hxl : x < g.left
          · rw [if_pos hxl] at hq
            exact Or.inr ⟨(x, y, image.pix x y), List.mem_cons_self _ _, hq.symm⟩
          · rw [if_neg hxl] at hq
            exact Or.inl hq
        · exact Or.inr ⟨p, List.mem_cons_of_mem _ hpa, hpe⟩
      · rcases Q12 with hq | ⟨p, hpa, hpe⟩
        · rw [hg2r] at hq
          by_cases hxr : x > g.right
          · rw [if_pos hxr] at hq
            exact Or.inr ⟨(x, y, image.pix x y), List.mem_cons_self _ _, hq.symm⟩
          · rw [if_neg hxr] at hq
            exact Or.inl hq
        · exact Or.inr ⟨p, List.mem_cons_of_mem _ hpa, hpe⟩
      · rcases Q13 with hq | ⟨p, hpa, hpe⟩
        · rw [hg2t] at hq
          by_cases hyt : y < g.top
          · rw [if_pos hyt] at hq
            exact Or.inr ⟨(x, y, image.pix x y), List.mem_cons_self _ _, hq.symm⟩
          · rw [if_neg hyt] at hq
            exact Or.inl hq
        · exact Or.inr ⟨p, List.mem_cons_of_mem _ hpa, hpe⟩
      · rcases Q14 with hq | ⟨p, hpa, hpe⟩
        · rw [hg2b] at hq
          by_cases hyb : y > g.bottom
          · rw [if_pos hyb] at hq
            exact Or.inr ⟨(x, y, image.pix x y), List.mem_cons_self _ _, hq.symm⟩
          · rw [if_neg hyb] at hq
            exact Or.inl hq
        · exact Or.inr ⟨p, List.mem_cons_of_mem _ hpa, hpe⟩

/-- Coordinate membership unfolded. -/
theorem mem_pixCoords (l : List (Nat × Nat × Rgb)) (c : Nat × Nat) :
    c ∈ pixCoords l ↔ ∃ p ∈ l, p.1 = c.1 ∧ p.2.1 = c.2 := by
  rw [pixCoords, List.mem_map]
  constructor
  · rintro ⟨p, hp, he⟩
    exact ⟨p, hp, congrArg Prod.fst he, congrArg Prod.snd he⟩
  · rintro ⟨p, hp, h1, h2⟩
    exact ⟨p, hp, Prod.ext h1 h2⟩

/-- Specification of one full flood fill from an unvisited in-bounds seed:
the returned grapheme's pixels are exactly the cells newly marked visited —
all previously unvisited, in bounds, colored from the image, duplicate-free,
containing the seed — the visited map is extended by exactly those cells,
the unvisited count drops by the pixel count, the override is unset, and the
bounding box is tight. -/
theorem detect_spec (image : Img) (x y : Nat) (vm : Vm)
    (hx : x < image.width) (hy : y < image.height) (hv : vm x y = false) :
    (pixCoords (Grapheme.detect x y image vm).1.pixels).Nodup ∧
    (∀ a b, (Grapheme.detect x y image vm).2 a b = true ↔
      vm a b = true ∨ (a, b) ∈ pixCoords (Grapheme.detect x y image vm).1.pixels) ∧
    (∀ c ∈ pixCoords (Grapheme.detect x y image vm).1.pixels,
      (c.1 < image.width ∧ c.2 < image.height) ∧ vm c.1 c.2 = false) ∧
    (∀ p ∈ (Grapheme.detect x y image vm).1.pixels, p.2.2 = image.pix p.1 p.2.1) ∧
    (cnt image (Grapheme.detect x y image vm).2 +
      (Grapheme.detect x y image vm).1.pixels.length = cnt image vm) ∧
    (x, y) ∈ pixCoords (Grapheme.detect x y image vm).1.pixels ∧
    (Grapheme.detect x y image vm).1.manual_override = none ∧
    TightBox (Grapheme.detect x y image vm).1 := by
  have hcntv : cnt image (vset vm x y true) + 1 = cnt image vm :=
    cnt_vset image vm x y hx hy hv
  have hseedv : vset vm x y true x y = true := by simp [vset]
  obtain ⟨added, HS⟩ := detectGo_spec image (image.width * image.height + 1)
    [(x, y)] (vset vm x y true) ⟨[], y, y, x, x, none⟩
    (by
      have := cnt_le image vm
      simp only [List.length_cons, List.length_nil]
      omega)
    (by
      intro c hc
      rw [List.mem_singleton] at hc
      subst hc
      exact ⟨⟨hx, hy⟩, hseedv⟩)
    (List.nodup_singleton _)
    (by intro p hp; cases hp)
    (by simp [pixCoords])
    (by intro c hc hmem; simp [pixCoords] at hmem)
  unfold DetectGoSpec at HS
  obtain ⟨S1, S2, S3, S4, S5, S6, S7, S8, S9, S10, S11, S12, S13, S14⟩ := HS
  rw [show (⟨[], y, y, x, x, none⟩ : Grapheme).pixels = [] from rfl,
    List.nil_append] at S1
  have hDdef : Grapheme.detect x y image vm = detectGo image
      (image.width * image.height + 1) [(x, y)] (vset vm x y true)
      ⟨[], y, y, x, x, none⟩ := rfl
  rw [hDdef]
  have hseedmem : (x, y) ∈ pixCoords added := S5 (x, y) (List.mem_singleton_self _)
  have hvmfalse : ∀ c ∈ pixCoords added, vm c.1 c.2 = false := by
    intro c hc
    rcases (S4 c hc).2 with hcs | hcf
    · rw [List.mem_singleton] at hcs
      subst hcs
      exact hv
    · cases hcv : vm c.1 c.2
      · rfl
      · exfalso
        rw [(vset_true_iff vm x y c.1 c.2).mpr (Or.inl hcv)] at hcf
        exact Bool.noConfusion hcf
  refine ⟨?_, ?_, ?_, ?_, ?_, ?_, ?_, ?_⟩
  · rw [S1]
    rw [show (⟨[], y, y, x, x, none⟩ : Grapheme).pixels = [] from rfl,
      List.nil_append] at S6
    exact S6
  · intro a b
    rw [S3 a b, vset_true_iff, S1]
    constructor
    · rintro ((hvm | ⟨rfl, rfl⟩) | hm)
      · exact Or.inl hvm
      · exact Or.inr hseedmem
      · exact Or.inr hm
    · rintro (hvm | hm)
      · exact Or.inl (Or.inl hvm)
      · exact Or.inr hm
  · intro c hc
    rw [S1] at hc
    exact ⟨(S4 c hc).1, hvmfalse c hc⟩
  · intro p hp
    rw [S1] at hp
    exact S7 p hp
  · rw [S1]
    simp only [List.length_singleton] at S8
    omega
  · rw [S1]
    exact hseedmem
  · exact S2
  · rw [TightBox]
    obtain ⟨hseedp, hpmem, hp1, hp2⟩ := (mem_pixCoords added (x, y)).mp hseedmem
    obtain ⟨sl, sr, st2, sb2⟩ := S9
    refine ⟨Nat.le_trans st2 sb2, Nat.le_trans sl sr, ?_, ?_, ?_, ?_, ?_⟩
    · intro p hp
      rw [S1] at hp
      exact S10 p hp
    · rcases S11 with he | ⟨p, hp, hpe⟩
      · refine ⟨hseedp, by rw [S1]; exact hpmem, by rw [he]; exact hp1⟩
      · exact ⟨p, by rw [S1]; exact hp, hpe⟩
    · rcases S12 with he | ⟨p, hp, hpe⟩
      · refine ⟨hseedp, by rw [S1]; exact hpmem, by rw [he]; exact hp1⟩
      · exact ⟨p, by rw [S1]; exact hp, hpe⟩
    · rcases S13 with he | ⟨p, hp, hpe⟩
      · refine ⟨hseedp, by rw [S1]; exact hpmem, by rw [he]; exact hp2⟩
      · exact ⟨p, by rw [S1]; exact hp, hpe⟩
    · rcases S14 with he | ⟨p, hp, hpe⟩
      · refine ⟨hseedp, by rw [S1]; exact hpmem, by rw [he]; exact hp2⟩
      · exact ⟨p, by rw [S1]; exact hp, hpe⟩

/-! ## The analyzer: map writes and the collection loop -/

/-- Net effect of writing a grapheme's pixels into the pixel→index map: the
dimensions and the grapheme list are untouched, and exactly the flat indices
of the written pixels now store the current grapheme count. -/
theorem writeMap_spec :
    ∀ (l : List (Nat × Nat × Rgb)) (acc : AnalyzedImage),
      (l.foldl (fun (a : AnalyzedImage) p =>
        a.set_grapheme_at p.1 p.2.1 (some a.graphemes.length)) acc).width = acc.width ∧
      (l.foldl (fun (a : AnalyzedImage) p =>
        a.set_grapheme_at p.1 p.2.1 (some a.graphemes.length)) acc).height = acc.height ∧
      (l.foldl (fun (a : AnalyzedImage) p =>
        a.set_grapheme_at p.1 p.2.1 (some a.graphemes.length)) acc).graphemes =
          acc.graphemes ∧
      ∀ j, (l.foldl (fun (a : AnalyzedImage) p =>
        a.set_grapheme_at p.1 p.2.1 (some a.graphemes.length)) acc).map j =
          if ∃ p ∈ l, j = acc.width * p.2.1 + p.1 then acc.graphemes.length
          else acc.map j := by
  intro l
  induction l with
  | nil =>
    intro acc
    refine ⟨rfl, rfl, rfl, ?_⟩
    intro j
    rw [if_neg (by simp)]
    rfl
  | cons p t ih =>
    intro acc
    rw [List.foldl_cons]
    obtain ⟨ihw, ihh, ihg, ihm⟩ := ih (acc.set_grapheme_at p.1 p.2.1 (some acc.graphemes.length))
    refine ⟨ihw, ihh, ihg, ?_⟩
    intro j
    rw [ihm j]
    have hsetw : (acc.set_grapheme_at p.1 p.2.1 (some acc.graphemes.length)).width =
        acc.width := rfl
    have hsetg : (acc.set_grapheme_at p.1 p.2.1 (some acc.graphemes.length)).graphemes =
        acc.graphemes := rfl
    have hsetm : ∀ k, (acc.set_grapheme_at p.1 p.2.1 (some acc.graphemes.length)).map k =
        if k = acc.width * p.2.1 + p.1 then acc.graphemes.length else acc.map k := fun k => rfl
    rw [hsetw, hsetg]
    by_cases ht : ∃ q ∈ t, j = acc.width * q.2.1 + q.1
    · rw [if_pos ht, if_pos ⟨ht.choose, List.mem_cons_of_mem _ ht.choose_spec.1,
        ht.choose_spec.2⟩]
    · rw [if_neg ht, hsetm j]
      by_cases hp : j = acc.width * p.2.1 + p.1
      · rw [if_pos hp, if_pos ⟨p, List.mem_cons_self _ _, hp⟩]
      · rw [if_neg hp, if_neg (by
          rintro ⟨q, hq, hqe⟩
          rcases List.mem_cons.mp hq with rfl | hqt
          · exact hp hqe
          · exact ht ⟨q, hqt, hqe⟩)]

/-- The grapheme-collection loop preserves the analyzer invariant, ends with
every processed coordinate visited, and only grows the visited set. -/
theorem analyzeGo_spec (image : Img) (bg : Vm) :
    ∀ (coords : List (Nat × Nat)) (vm : Vm) (acc : AnalyzedImage),
      (∀ c ∈ coords, c.1 < image.width ∧ c.2 < image.height) →
      AnalyzeInv image bg vm acc →
      AnalyzeInv image bg (analyzeGo image coords vm acc).2 (analyzeGo image coords vm acc).1 ∧
      (∀ c ∈ coords, (analyzeGo image coords vm acc).2 c.1 c.2 = true) ∧
      (∀ a b, vm a b = true → (analyzeGo image coords vm acc).2 a b = true) := by
  intro coords
  induction coords with
  | nil =>
    intro vm acc _ hinv
    exact ⟨hinv, fun c hc => absurd hc (List.not_mem_nil c), fun a b h => h⟩
  | cons c rest ih =>
    intro vm acc hcoords hinv
    have hcb := hcoords c (List.mem_cons_self _ _)
    have hrest : ∀ c' ∈ rest, c'.1 < image.width ∧ c'.2 < image.height :=
      fun c' hc' => hcoords c' (List.mem_cons_of_mem _ hc')
    by_cases hvc : vm c.1 c.2 = true
    · have hunfold : analyzeGo image (c :: rest) vm acc = analyzeGo image rest vm acc := by
        simp only [analyzeGo, hvc, if_true]
      rw [hunfold]
      obtain ⟨h1, h2, h3⟩ := ih vm acc hrest hinv
      refine ⟨h1, ?_, h3⟩
      intro c' hc'
      rcases List.mem_cons.mp hc' with rfl | hcr
      · exact h3 c'.1 c'.2 hvc
      · exact h2 c' hcr
    · have hvf : vm c.1 c.2 = false := by
        cases h : vm c.1 c.2
        · rfl
        · exact absurd h hvc
      have hunfold : analyzeGo image (c :: rest) vm acc =
          analyzeGo image rest (Grapheme.detect c.1 c.2 image vm).2
            { (Grapheme.detect c.1 c.2 image vm).1.pixels.foldl
                (fun (a : AnalyzedImage) p =>
                  a.set_grapheme_at p.1 p.2.1 (some a.graphemes.length)) acc with
              graphemes := ((Grapheme.detect c.1 c.2 image vm).1.pixels.foldl
                (fun (a : AnalyzedImage) p =>
                  a.set_grapheme_at p.1 p.2.1 (some a.graphemes.length)) acc).graphemes ++
                [(Grapheme.detect c.1 c.2 image vm).1] } := by
        simp only [analyzeGo, hvf]
        rfl
      obtain ⟨D1, D2, D3, D4, D5, D6, D7, D8⟩ := detect_spec image c.1 c.2 vm hcb.1 hcb.2 hvf
      obtain ⟨W1, W2, W3, W4⟩ := writeMap_spec (Grapheme.detect c.1 c.2 image vm).1.pixels acc
      unfold AnalyzeInv at hinv
      obtain ⟨I1, I2, I3, I4, I5, I6, I7, I8, I9, I10⟩ := hinv
      rw [I1] at W4
      have hKnonempty : (Grapheme.detect c.1 c.2 image vm).1.pixels ≠ [] := by
        intro hcontra
        rw [hcontra] at D6
        simp [pixCoords] at D6
      have hmemK : ∀ p ∈ (Grapheme.detect c.1 c.2 image vm).1.pixels,
          (p.1, p.2.1) ∈ pixCoords (Grapheme.detect c.1 c.2 image vm).1.pixels := by
        intro p hp
        rw [pixCoords, List.mem_map]
        exact ⟨p, hp, rfl⟩
      have holdvm : ∀ g ∈ acc.graphemes, ∀ c' ∈ pixCoords g.pixels, vm c'.1 c'.2 = true := by
        intro g hg c' hc'
        obtain ⟨p, hp, hp1, hp2⟩ := (mem_pixCoords _ _).mp hc'
        have hb := (I5 g hg p hp).1
        exact (I3 c'.1 c'.2 (by omega) (by omega)).mpr (Or.inr ⟨g, hg, hc'⟩)
      -- the invariant for the recursive call
      have hinv2 : AnalyzeInv image bg (Grapheme.detect c.1 c.2 image vm).2
          { (Grapheme.detect c.1 c.2 image vm).1.pixels.foldl
              (fun (a : AnalyzedImage) p =>
                a.set_grapheme_at p.1 p.2.1 (some a.graphemes.length)) acc with
            graphemes := ((Grapheme.detect c.1 c.2 image vm).1.pixels.foldl
              (fun (a : AnalyzedImage) p =>
                a.set_grapheme_at p.1 p.2.1 (some a.graphemes.length)) acc).graphemes ++
              [(Grapheme.detect c.1 c.2 image vm).1] } := by
        unfold AnalyzeInv
        rw [W3]
        refine ⟨W1.trans I1, W2.trans I2, ?_, ?_, ?_, ?_, ?_, ?_, ?_, ?_⟩
        · -- visited iff background or claimed
          intro x y hx hy
          rw [D2 x y, I3 x y hx hy]
          constructor
          · rintro ((hbg | ⟨g, hg, hm⟩) | hK)
            · exact Or.inl hbg
            · exact Or.inr ⟨g, List.mem_append_left _ hg, hm⟩
            · exact Or.inr ⟨(Grapheme.detect c.1 c.2 image vm).1,
                List.mem_append_right _ (List.mem_singleton_self _), hK⟩
          · rintro (hbg | ⟨g, hg, hm⟩)
            · exact Or.inl (Or.inl hbg)
            · rcases List.mem_append.mp hg with hgo | hgn
              · exact Or.inl (Or.inr ⟨g, hgo, hm⟩)
              · rw [List.mem_singleton] at hgn
                subst hgn
                exact Or.inr hm
        · -- nodup
          intro g hg
          rcases List.mem_append.mp hg with hgo | hgn
          · exact I4 g hgo
          · rw [List.mem_singleton] at hgn
            subst hgn
            exact D1
        · -- per-pixel bounds, colors, non-background
          intro g hg p hp
          rcases List.mem_append.mp hg with hgo | hgn
          · exact I5 g hgo p hp
          · rw [List.mem_singleton] at hgn
            subst hgn
            have hpK := hmemK p hp
            obtain ⟨hb, hf⟩ := D3 (p.1, p.2.1) hpK
            refine ⟨hb, D4 p hp, ?_⟩
            cases hbg : bg p.1 p.2.1
            · rfl
            · exfalso
              have := (I3 p.1 p.2.1 hb.1 hb.2).mpr (Or.inl hbg)
              rw [this] at hf
              exact Bool.noConfusion hf
        · -- pairwise disjoint
          rw [List.pairwise_append]
          refine ⟨I6, List.pairwise_singleton _ _, ?_⟩
          intro g hgo g' hgn
          rw [List.mem_singleton] at hgn
          subst hgn
          intro c' hc' hcK
          have hvt := holdvm g hgo c' hc'
          have hvfK := (D3 c' hcK).2
          rw [hvt] at hvfK
          exact Bool.noConfusion hvfK
        · -- sentinel on unclaimed cells
          intro x y hx hy hnone
          have hmap2 : ({ (Grapheme.detect c.1 c.2 image vm).1.pixels.foldl
              (fun (a : AnalyzedImage) (p : Nat × Nat × Rgb) =>
                a.set_grapheme_at p.1 p.2.1 (some a.graphemes.length)) acc with
            graphemes := ((Grapheme.detect c.1 c.2 image vm).1.pixels.foldl
              (fun (a : AnalyzedImage) (p : Nat × Nat × Rgb) =>
                a.set_grapheme_at p.1 p.2.1 (some a.graphemes.length)) acc).graphemes ++
              [(Grapheme.detect c.1 c.2 image vm).1] }).map =
              ((Grapheme.detect c.1 c.2 image vm).1.pixels.foldl
              (fun (a : AnalyzedImage) (p : Nat × Nat × Rgb) =>
                a.set_grapheme_at p.1 p.2.1 (some a.graphemes.length)) acc).map := rfl
          rw [hmap2, W4]
          rw [if_neg (by
            rintro ⟨p, hp, hpe⟩
            have hb := (D3 (p.1, p.2.1) (hmemK p hp)).1
            obtain ⟨he1, he2⟩ := flatIndex_inj image.width x y p.1 p.2.1 hx hb.1 hpe
            exact hnone (Grapheme.detect c.1 c.2 image vm).1
              (List.mem_append_right _ (List.mem_singleton_self _))
              (by rw [he1, he2]; exact hmemK p hp))]
          exact I7 x y hx hy (fun g hg => hnone g (List.mem_append_left _ hg))
        · -- owning index on claimed cells
          intro i hi p hp
          have hmap2 : ({ (Grapheme.detect c.1 c.2 image vm).1.pixels.foldl
              (fun (a : AnalyzedImage) (p : Nat × Nat × Rgb) =>
                a.set_grapheme_at p.1 p.2.1 (some a.graphemes.length)) acc with
            graphemes := ((Grapheme.detect c.1 c.2 image vm).1.pixels.foldl
              (fun (a : AnalyzedImage) (p : Nat × Nat × Rgb) =>
                a.set_grapheme_at p.1 p.2.1 (some a.graphemes.length)) acc).graphemes ++
              [(Grapheme.detect c.1 c.2 image vm).1] }).map =
              ((Grapheme.detect c.1 c.2 image vm).1.pixels.foldl
              (fun (a : AnalyzedImage) (p : Nat × Nat × Rgb) =>
                a.set_grapheme_at p.1 p.2.1 (some a.graphemes.length)) acc).map := rfl
          rw [hmap2, W4]
          rw [List.length_append, List.length_singleton] at hi
          by_cases hilt : i < acc.graphemes.length
          · have hget : ((acc.graphemes ++ [(Grapheme.detect c.1 c.2 image vm).1]).get
                ⟨i, by rw [List.length_append, List.length_singleton]; omega⟩) =
                acc.graphemes.get ⟨i, hilt⟩ := by
              rw [List.get_eq_getElem, List.get_eq_getElem]
              exact List.getElem_append_left hilt
            rw [hget] at hp
            have hpold := I8 i hilt p hp
            have hbp := (I5 _ (List.get_mem acc.graphemes i hilt) p hp).1
            rw [if_neg (by
              rintro ⟨q, hq, hqe⟩
              have hbq := (D3 (q.1, q.2.1) (hmemK q hq)).1
              obtain ⟨he1, he2⟩ := flatIndex_inj image.width q.1 q.2.1 p.1 p.2.1
                hbq.1 hbp.1 hqe.symm
              have hpcoord : (p.1, p.2.1) ∈ pixCoords
                  (acc.graphemes.get ⟨i, hilt⟩).pixels := by
                rw [pixCoords, List.mem_map]
                exact ⟨p, hp, rfl⟩
              have hvt := holdvm _ (List.get_mem acc.graphemes i hilt) _ hpcoord
              have hvfq := (D3 (q.1, q.2.1) (hmemK q hq)).2
              rw [he1, he2] at hvfq
              rw [hvt] at hvfq
              exact Bool.noConfusion hvfq)]
            exact hpold
          · have hieq : i = acc.graphemes.length := by omega
            subst hieq
            have hget : ((acc.graphemes ++ [(Grapheme.detect c.1 c.2 image vm).1]).get
                ⟨acc.graphemes.length, by
                  rw [List.length_append, List.length_singleton]; omega⟩) =
                (Grapheme.detect c.1 c.2 image vm).1 := by
              rw [List.get_eq_getElem]
              exact List.getElem_concat_length _ _ _ rfl _
            rw [hget] at hp
            rw [if_pos ⟨p, hp, rfl⟩]
        · -- count
          rw [List.length_append, List.length_singleton]
          have hlen : 1 ≤ (Grapheme.detect c.1 c.2 image vm).1.pixels.length := by
            cases hc2 : (Grapheme.detect c.1 c.2 image vm).1.pixels
            · exact absurd hc2 hKnonempty
            · simp
          omega
        · -- geometry
          intro g hg
          rcases List.mem_append.mp hg with hgo | hgn
          · exact I10 g hgo
          · rw [List.mem_singleton] at hgn
            subst hgn
            exact ⟨D8, D7, hKnonempty⟩
      rw [hunfold]
      obtain ⟨F1, F2, F3⟩ := ih _ _ hrest hinv2
      refine ⟨F1, ?_, ?_⟩
      · intro c' hc'
        rcases List.mem_cons.mp hc' with rfl | hcr
        · exact F3 c'.1 c'.2 ((D2 c'.1 c'.2).mpr (Or.inr D6))
        · exact F2 c' hcr
      · intro a b hab
        exact F3 a b ((D2 a b).mpr (Or.inl hab))

/-- Coordinate membership as color-annotated membership. -/
theorem pixCoords_mem_iff (l : List (Nat × Nat × Rgb)) (x y : Nat) :
    (x, y) ∈ pixCoords l ↔ ∃ c : Rgb, (x, y, c) ∈ l := by
  rw [mem_pixCoords]
  constructor
  · rintro ⟨p, hp, h1, h2⟩
    have h1b : p.1 = x := h1
    have h2b : p.2.1 = y := h2
    refine ⟨p.2.2, ?_⟩
    rw [← h1b, ← h2b]
    exact hp
  · rintro ⟨cc, hc⟩
    exact ⟨(x, y, cc), hc, rfl, rfl⟩

/-- The analyzer invariant holds for the output of `analyze`, and every
in-bounds cell ends up visited. -/
theorem analyze_inv (A : ImageAnalyzer) (image : Img) :
    AnalyzeInv image (whiten A image)
      (analyzeGo image (rasterCoords image) (whiten A image) (AnalyzedImage.new image)).2
      (A.analyze image) ∧
    (∀ x y, x < image.width → y < image.height →
      (analyzeGo image (rasterCoords image) (whiten A image)
        (AnalyzedImage.new image)).2 x y = true) := by
  have hinit : AnalyzeInv image (whiten A image) (whiten A image) (AnalyzedImage.new image) := by
    unfold AnalyzeInv
    refine ⟨rfl, rfl, ?_, ?_, ?_, List.Pairwise.nil, ?_, ?_, ?_, ?_⟩
    · intro x y _ _
      constructor
      · exact fun h => Or.inl h
      · rintro (h | ⟨g, hg, -⟩)
        · exact h
        · exact absurd hg (List.not_mem_nil g)
    · intro g hg
      exact absurd hg (List.not_mem_nil g)
    · intro g hg
      exact absurd hg (List.not_mem_nil g)
    · intro x y _ _ _
      rfl
    · intro i hi
      exact absurd hi (by simp [AnalyzedImage.new])
    · have := cnt_le image (whiten A image)
      simpa [AnalyzedImage.new] using this
    · intro g hg
      exact absurd hg (List.not_mem_nil g)
  obtain ⟨F1, F2, F3⟩ := analyzeGo_spec image (whiten A image) (rasterCoords image)
    (whiten A image) (AnalyzedImage.new image)
    (fun c hc => (mem_rasterCoords image c).mp hc) hinit
  exact ⟨F1, fun x y hx hy => F2 (x, y) ((mem_rasterCoords image (x, y)).mpr ⟨hx, hy⟩)⟩

/-- The partition property of `analyze` at each in-bounds pixel: a whitened
(background) pixel keeps the sentinel and belongs to no grapheme; any other
pixel belongs to exactly one grapheme, whose index is stored in the map. -/
theorem analyze_partition (A : ImageAnalyzer) (image : Img) (x y : Nat)
    (hx : x < image.width) (hy : y < image.height) :
    (whiten A image x y = true →
      (A.analyze image).map (image.width * y + x) = U32MAX ∧
      ∀ g ∈ (A.analyze image).graphemes, (x, y) ∉ pixCoords g.pixels) ∧
    (whiten A image x y = false →
      ∃ i, ∃ hi : i < (A.analyze image).graphemes.length,
        (A.analyze image).map (image.width * y + x) = i ∧
        (x, y, image.pix x y) ∈ ((A.analyze image).graphemes.get ⟨i, hi⟩).pixels ∧
        ∀ j, ∀ hj : j < (A.analyze image).graphemes.length,
          (x, y) ∈ pixCoords ((A.analyze image).graphemes.get ⟨j, hj⟩).pixels → j = i) := by
  obtain ⟨Finv, Fcov⟩ := analyze_inv A image
  unfold AnalyzeInv at Finv
  obtain ⟨F1, F2, F3, F4, F5, F6, F7, F8, F9, F10⟩ := Finv
  constructor
  · intro hbg
    have hnomem : ∀ g ∈ (A.analyze image).graphemes, (x, y) ∉ pixCoords g.pixels := by
      intro g hg hmem
      obtain ⟨p, hp, hp1, hp2⟩ := (mem_pixCoords _ _).mp hmem
      have := (F5 g hg p hp).2.2
      rw [hp1, hp2] at this
      rw [hbg] at this
      exact Bool.noConfusion this
    exact ⟨F7 x y hx hy hnomem, hnomem⟩
  · intro hbgf
    have hvis := Fcov x y hx hy
    have := (F3 x y hx hy).mp hvis
    rcases this with hbg | ⟨g, hg, hmem⟩
    · rw [hbgf] at hbg
      exact absurd hbg (Bool.noConfusion)
    · obtain ⟨⟨i, hi⟩, hgi⟩ := List.mem_iff_get.mp hg
      refine ⟨i, hi, ?_, ?_, ?_⟩
      · obtain ⟨p, hp, hp1, hp2⟩ := (mem_pixCoords _ _).mp hmem
        have hp1b : p.1 = x := hp1
        have hp2b : p.2.1 = y := hp2
        have hmap := F8 i hi p (by rw [hgi]; exact hp)
        rw [hp1b, hp2b] at hmap
        exact hmap
      · obtain ⟨p, hp, hp1, hp2⟩ := (mem_pixCoords _ _).mp hmem
        have hp1b : p.1 = x := hp1
        have hp2b : p.2.1 = y := hp2
        have hcol := (F5 g hg p hp).2.1
        rw [hgi]
        rw [← hp1b, ← hp2b, ← hcol]
        exact hp
      · intro j hj hjm
        have hpw := List.pairwise_iff_getElem.mp F6
        have hjm2 : (x, y) ∈ pixCoords ((A.analyze image).graphemes[j]).pixels := hjm
        have him2 : (x, y) ∈ pixCoords ((A.analyze image).graphemes[i]).pixels := by
          rw [← hgi] at hmem
          exact hmem
        by_contra hne
        rcases Nat.lt_or_ge j i with hji | hij
        · exact (hpw j i hj hi hji) (x, y) hjm2 him2
        · exact (hpw i j hi hj (by omega)) (x, y) him2 hjm2

/-! ## Claim C1 -/

/-- C1: after `analyze`, every in-bounds pixel is either background — its
map entry is the sentinel `U32MAX` and it belongs to no grapheme's pixel
list — or it belongs to exactly one grapheme, the one whose index is stored
in the map, never both and never neither.  (The size bound keeps grapheme
indices below the u32 sentinel; it holds for any image whose flat pixel
buffer is addressable.) -/
theorem c1_partition (A : ImageAnalyzer) (image : Img)
    (hsz : image.width * image.height < 2 ^ 32)
    (x y : Nat) (hx : x < image.width) (hy : y < image.height) :
    (whiten A image x y = true →
      (A.analyze image).map (image.width * y + x) = U32MAX ∧
      ∀ g ∈ (A.analyze image).graphemes, ∀ c : Rgb, (x, y, c) ∉ g.pixels) ∧
    (whiten A image x y = false →
      (A.analyze image).map (image.width * y + x) ≠ U32MAX ∧
      ∃ i, ∃ hi : i < (A.analyze image).graphemes.length,
        (A.analyze image).map (image.width * y + x) = i ∧
        (x, y, image.pix x y) ∈ ((A.analyze image).graphemes.get ⟨i, hi⟩).pixels ∧
        ∀ j, ∀ hj : j < (A.analyze image).graphemes.length,
          (∃ c : Rgb, (x, y, c) ∈ ((A.analyze image).graphemes.get ⟨j, hj⟩).pixels) →
            j = i) := by
  obtain ⟨hbgcase, hinkcase⟩ := analyze_partition A image x y hx hy
  constructor
  · intro hbg
    obtain ⟨hmap, hnomem⟩ := hbgcase hbg
    refine ⟨hmap, ?_⟩
    intro g hg cc hcc
    exact hnomem g hg ((pixCoords_mem_iff g.pixels x y).mpr ⟨cc, hcc⟩)
  · intro hbgf
    obtain ⟨i, hi, hmap, hmem, huniq⟩ := hinkcase hbgf
    have hlenle : (A.analyze image).graphemes.length ≤ image.width * image.height := by
      obtain ⟨Finv, -⟩ := analyze_inv A image
      unfold AnalyzeInv at Finv
      have := Finv.2.2.2.2.2.2.2.2.1
      omega
    refine ⟨?_, i, hi, hmap, hmem, ?_⟩
    · rw [hmap]
      rw [U32MAX]
      omega
    · intro j hj ⟨cc, hcc⟩
      exact huniq j hj ((pixCoords_mem_iff _ x y).mpr ⟨cc, hcc⟩)

/-- Witness for C1 at a concrete input: the single black pixel of the 1×1
image is not background; the unique grapheme index 0 is stored for it. -/
theorem c1_partition_witness :
    (ImageAnalyzer.defaultCfg.analyze imgBlack).map (imgBlack.width * 0 + 0) = 0 := by
  obtain ⟨-, h2⟩ := c1_partition ImageAnalyzer.defaultCfg imgBlack (by decide) 0 0
    (by decide) (by decide)
  obtain ⟨-, i, hi, hmap, -, -⟩ := h2 (by decide)
  have hlen : (ImageAnalyzer.defaultCfg.analyze imgBlack).graphemes.length = 1 := by decide
  have hi0 : i = 0 := by omega
  rw [hi0] at hmap
  exact hmap

/-! ## Claim C7 -/

/-- C7: every grapheme produced by `analyze` has a tight bounding box:
`top ≤ bottom`, `left ≤ right`, every member pixel's coordinates lie within
[left, right] × [top, bottom], and each of the four edges is attained by
some member pixel. -/
theorem c7_bounding_box_tight (A : ImageAnalyzer) (image : Img) (g : Grapheme)
    (hg : g ∈ (A.analyze image).graphemes) : TightBox g := by
  obtain ⟨Finv, -⟩ := analyze_inv A image
  unfold AnalyzeInv at Finv
  exact (Finv.2.2.2.2.2.2.2.2.2 g hg).1

/-- Witness for C7 at a concrete input: the grapheme detected on the 1×1
black image. -/
theorem c7_bounding_box_tight_witness : TightBox gOne :=
  c7_bounding_box_tight ImageAnalyzer.defaultCfg imgBlack gOne (by decide)

/-! ## Claim C10 -/

/-- C10: for every in-bounds coordinate of an analyzed image,
`get_grapheme_at` never panics: on a background pixel it returns `none`; on
an ink pixel the stored map entry is a valid index into the grapheme list
and the returned grapheme's pixel list contains the coordinate with the
pixel's original color. -/
theorem c10_get_grapheme_at (A : ImageAnalyzer) (image : Img)
    (hsz : image.width * image.height < 2 ^ 32)
    (x y : Nat) (hx : x < image.width) (hy : y < image.height) :
    (whiten A image x y = true → (A.analyze image).get_grapheme_at x y = none) ∧
    (whiten A image x y = false →
      ∃ i, ∃ hi : i < (A.analyze image).graphemes.length,
        (A.analyze image).map ((A.analyze image).width * y + x) = i ∧
        (A.analyze image).get_grapheme_at x y =
          some ((A.analyze image).graphemes.get ⟨i, hi⟩) ∧
        (x, y, image.pix x y) ∈ ((A.analyze image).graphemes.get ⟨i, hi⟩).pixels) := by
  have hwidth : (A.analyze image).width = image.width := by
    obtain ⟨Finv, -⟩ := analyze_inv A image
    unfold AnalyzeInv at Finv
    exact Finv.1
  obtain ⟨hbgcase, hinkcase⟩ := analyze_partition A image x y hx hy
  constructor
  · intro hbg
    obtain ⟨hmap, -⟩ := hbgcase hbg
    rw [AnalyzedImage.get_grapheme_at, hwidth, if_pos hmap]
  · intro hbgf
    obtain ⟨i, hi, hmap, hmem, -⟩ := hinkcase hbgf
    have hlenle : (A.analyze image).graphemes.length ≤ image.width * image.height := by
      obtain ⟨Finv, -⟩ := analyze_inv A image
      unfold AnalyzeInv at Finv
      have := Finv.2.2.2.2.2.2.2.2.1
      omega
    have hne : (A.analyze image).map (image.width * y + x) ≠ U32MAX := by
      rw [hmap, U32MAX]
      omega
    refine ⟨i, hi, by rw [hwidth]; exact hmap, ?_, hmem⟩
    rw [AnalyzedImage.get_grapheme_at, hwidth, if_neg hne, hmap]
    rw [getD_eq_get_of_lt _ i hi]

/-- Witness for C10 at a concrete input: the black pixel of the 1×1 image
yields its grapheme. -/
theorem c10_get_grapheme_at_witness :
    (ImageAnalyzer.defaultCfg.analyze imgBlack).get_grapheme_at 0 0 ≠ none := by
  obtain ⟨-, h2⟩ := c10_get_grapheme_at ImageAnalyzer.defaultCfg imgBlack (by decide) 0 0
    (by decide) (by decide)
  obtain ⟨i, hi, -, hsome, -⟩ := h2 (by decide)
  rw [hsome]
  exact Option.noConfusion
